import Mathlib

/-!
Verification development for the SquashFS image-construction subsystem of
squashfs-tools-ng: a shallow embedding of the inode and directory
serializer (mkfs meta.c), of the data-reader dump path, and of the tar
header decoder, together with theorems about the properties claimed for
them. Machine integers of the C code are modelled as Nat with explicit
reduction modulo two to the width where truncation or wrap-around can
occur. The meta-writer internals, which are consumed but not defined by
the embedded translation units, are modelled from the specification of
the meta-stream writer.
-/

/-! Fixed-width helpers for the C integer types. -/

/-- Wrapping subtraction on 32-bit unsigned values, as computed by a C
expression of the form a minus b on two uint32 operands. -/
def sub32 (a b : Nat) : Nat := (a + 4294967296 - b % 4294967296) % 4294967296

/-- Wrapping subtraction on 64-bit unsigned values, size_t arithmetic. -/
def sub64 (a b : Nat) : Nat :=
  (a + 18446744073709551616 - b % 18446744073709551616) % 18446744073709551616

/-- Little-endian byte serialization of a 16-bit value. -/
def encodeU16 (v : Nat) : List Nat := [v % 256, v / 256 % 256]

/-- Little-endian byte serialization of a 32-bit value. -/
def encodeU32 (v : Nat) : List Nat :=
  [v % 256, v / 256 % 256, v / 65536 % 256, v / 16777216 % 256]

/-- Little-endian byte serialization of a 64-bit value. -/
def encodeU64 (v : Nat) : List Nat :=
  encodeU32 (v % 4294967296) ++ encodeU32 (v / 4294967296 % 4294967296)

/-- Byte sequence of a C string, one code point per byte (names are ASCII). -/
def strBytes (s : String) : List Nat := s.toList.map Char.toNat

/-! The meta-stream writer.

Modelled from the spec: meta_writer.h and its implementation are not part
of the embedded sources, only their client meta.c is. Per the spec, a
meta-writer produces a chain of compressed metadata blocks of at most
8192 uncompressed bytes; append copies bytes into the current block and
flushes automatically when it becomes full; the cursor, the pair of the
current block start offset in the stream and the byte offset inside the
uncompressed block, always denotes the position of the next byte that
would be appended; each emitted block is framed by a 16-bit little-endian
length header whose top bit marks an uncompressed block.
The compressor is a parameter, a function from the pending bytes to a
candidate compressed byte string; as in SquashFS, the compressed form is
kept only when strictly shorter. -/

structure meta_writer_t where
  data : List Nat
  block_offset : Nat
  out : List Nat

/-- The current byte offset inside the uncompressed block being built. -/
def meta_writer_t.offset (m : meta_writer_t) : Nat := m.data.length

def meta_writer_create : meta_writer_t := ⟨[], 0, []⟩

/-- Modelled from the spec: finalize the current block, emitting the
length-framed (possibly compressed) block into the backing stream. -/
def meta_writer_flush (cmp : List Nat → List Nat) (m : meta_writer_t) : meta_writer_t :=
  if m.data.length = 0 then m
  else
    let c := cmp m.data
    let payload := if c.length < m.data.length then c else m.data
    let hdr := if c.length < m.data.length then payload.length
               else payload.length + 32768
    ⟨[], m.block_offset + 2 + payload.length, m.out ++ encodeU16 hdr ++ payload⟩

/-- Modelled from the spec: append one byte, flushing when the block is full. -/
def mw_push (cmp : List Nat → List Nat) (m : meta_writer_t) (b : Nat) : meta_writer_t :=
  let m1 : meta_writer_t := ⟨m.data ++ [b % 256], m.block_offset, m.out⟩
  if m1.data.length = 8192 then meta_writer_flush cmp m1 else m1

/-- Modelled from the spec: copy a byte string into the stream. -/
def meta_writer_append (cmp : List Nat → List Nat) (m : meta_writer_t)
    (bs : List Nat) : meta_writer_t :=
  bs.foldl (mw_push cmp) m

/-! The directory writer of meta.c. -/

def SQFS_MAX_DIR_ENT : Nat := 256

structure sqfs_dir_header_t where
  count : Nat
  start_block : Nat
  inode_number : Nat
deriving DecidableEq

structure sqfs_dir_entry_t where
  offset : Nat
  inode_number : Nat
  typ : Nat
  size : Nat
deriving DecidableEq

/-- What write_dir reads from each child tree node: the fields inode_ref,
inode_num, type and name that were stored on the node when its own inode
was serialized earlier. -/
structure dirent_source where
  inode_ref : Nat
  inode_num : Nat
  typ : Nat
  name : String
deriving DecidableEq

/-- The scan of the inner for loop of write_dir: how many leading list
members agree with the group base c on the upper bits of inode_ref and lie
within 0xFFFF of its inode number in wrapping uint32 subtraction. -/
def count_run (c : dirent_source) : List dirent_source → Nat
  | [] => 0
  | d :: rest =>
      if d.inode_ref >>> 16 ≠ c.inode_ref >>> 16 then 0
      else if sub32 d.inode_num c.inode_num > 65535 then 0
      else count_run c rest + 1

/-- The grouping loop of write_dir, fuel-indexed for structural recursion:
each iteration scans a run from the current child, caps it at
SQFS_MAX_DIR_ENT, emits one header for it and continues after the run. -/
def write_dir_groupsF : Nat → List dirent_source → List (sqfs_dir_header_t × List dirent_source)
  | 0, _ => []
  | _, [] => []
  | fuel + 1, c :: rest =>
      let cr := count_run c (c :: rest)
      let n := if cr > SQFS_MAX_DIR_ENT then SQFS_MAX_DIR_ENT else cr
      let hdr : sqfs_dir_header_t :=
        ⟨(n - 1) % 4294967296, (c.inode_ref >>> 16) % 4294967296, c.inode_num % 4294967296⟩
      (hdr, (c :: rest).take n) :: write_dir_groupsF fuel ((c :: rest).drop n)

/-- The groups of headers and entry runs emitted by write_dir for a child
list; the list length is always sufficient fuel since every run is
nonempty. -/
def write_dir_groups (l : List dirent_source) : List (sqfs_dir_header_t × List dirent_source) :=
  write_dir_groupsF l.length l

/-- The directory entry record written for one child: offset is the lower
16 bits of the child inode_ref, inode_number the wrapping uint32
difference to the group base truncated to 16 bits, and size the name
length minus one in size_t arithmetic truncated to 16 bits. -/
def mk_entry (base : Nat) (e : dirent_source) : sqfs_dir_entry_t :=
  ⟨e.inode_ref % 65536, sub32 e.inode_num base % 65536, e.typ % 65536,
   sub64 e.name.length 1 % 65536⟩

def encode_dir_header (h : sqfs_dir_header_t) : List Nat :=
  encodeU32 h.count ++ encodeU32 h.start_block ++ encodeU32 h.inode_number

def encode_dir_entry (e : sqfs_dir_entry_t) : List Nat :=
  encodeU16 e.offset ++ encodeU16 e.inode_number ++ encodeU16 e.typ ++ encodeU16 e.size

/-- The fields of dir_info_t that write_dir fills in: the meta-writer
cursor at the start of the listing and the accumulated listing size. -/
structure dir_info_t where
  start_block : Nat
  block_offset : Nat
  size : Nat

/-- Listing bytes accounted for one group: sizeof header plus, per entry,
sizeof entry plus the name length. -/
def dir_group_size (g : sqfs_dir_header_t × List dirent_source) : Nat :=
  12 + (g.2.map (fun e => 8 + e.name.length)).sum

/-- write_dir of meta.c: record the directory meta-writer cursor, then
append, per group, one header followed by the delta-encoded entries with
their names, and accumulate the listing size. -/
def write_dir (cmp : List Nat → List Nat) (dm : meta_writer_t)
    (children : List dirent_source) : meta_writer_t × dir_info_t :=
  let gs := write_dir_groups children
  let dm2 := gs.foldl (fun m g =>
      let m1 := meta_writer_append cmp m (encode_dir_header g.1)
      g.2.foldl (fun mm e =>
          meta_writer_append cmp
            (meta_writer_append cmp mm (encode_dir_entry (mk_entry g.1.inode_number e)))
            (strBytes e.name)) m1) dm
  (dm2, ⟨dm.block_offset, dm.data.length, (gs.map dir_group_size).sum⟩)

/-! The filesystem tree of mksquashfs. -/

/-- The per-file payload of a tree node. -/
structure file_info_t where
  size : Nat
  startblock : Nat
  fragment : Nat
  fragment_offset : Nat
  blocksizes : List Nat
deriving DecidableEq

/-- tree_node_t: the C record holds common fields plus a union resolved
through the file-type bits of mode; the union is embedded as a sum, the
permission bits are kept in perm and mode is recovered from both. -/
inductive tree_node_t where
  | dir (name : String) (perm uid gid mtime : Nat) (children : List tree_node_t)
  | file (name : String) (perm uid gid mtime : Nat) (fi : file_info_t)
  | slink (name : String) (perm uid gid mtime : Nat) (target : String)
  | bdev (name : String) (perm uid gid mtime : Nat) (devno : Nat)
  | cdev (name : String) (perm uid gid mtime : Nat) (devno : Nat)
  | fifo (name : String) (perm uid gid mtime : Nat)
  | sock (name : String) (perm uid gid mtime : Nat)

def S_IFSOCK : Nat := 49152
def S_IFLNK : Nat := 40960
def S_IFREG : Nat := 32768
def S_IFBLK : Nat := 24576
def S_IFDIR : Nat := 16384
def S_IFCHR : Nat := 8192
def S_IFIFO : Nat := 4096

def tree_node_t.name : tree_node_t → String
  | .dir nm _ _ _ _ _ => nm
  | .file nm _ _ _ _ _ => nm
  | .slink nm _ _ _ _ _ => nm
  | .bdev nm _ _ _ _ _ => nm
  | .cdev nm _ _ _ _ _ => nm
  | .fifo nm _ _ _ _ => nm
  | .sock nm _ _ _ _ => nm

def tree_node_t.uid : tree_node_t → Nat
  | .dir _ _ u _ _ _ => u
  | .file _ _ u _ _ _ => u
  | .slink _ _ u _ _ _ => u
  | .bdev _ _ u _ _ _ => u
  | .cdev _ _ u _ _ _ => u
  | .fifo _ _ u _ _ => u
  | .sock _ _ u _ _ => u

def tree_node_t.gid : tree_node_t → Nat
  | .dir _ _ _ g _ _ => g
  | .file _ _ _ g _ _ => g
  | .slink _ _ _ g _ _ => g
  | .bdev _ _ _ g _ _ => g
  | .cdev _ _ _ g _ _ => g
  | .fifo _ _ _ g _ => g
  | .sock _ _ _ g _ => g

/-- The full mode value: file-type bits from the union tag, or-ed with the
stored permission bits, as kept in the C mode field. -/
def tree_node_t.mode : tree_node_t → Nat
  | .dir _ p _ _ _ _ => S_IFDIR ||| p
  | .file _ p _ _ _ _ => S_IFREG ||| p
  | .slink _ p _ _ _ _ => S_IFLNK ||| p
  | .bdev _ p _ _ _ _ => S_IFBLK ||| p
  | .cdev _ p _ _ _ _ => S_IFCHR ||| p
  | .fifo _ p _ _ _ => S_IFIFO ||| p
  | .sock _ p _ _ _ => S_IFSOCK ||| p

/-- The child list of a node, empty for non-directories. -/
def tree_node_t.children : tree_node_t → List tree_node_t
  | .dir _ _ _ _ _ ch => ch
  | _ => []

/-- hard_link_count of meta.c: two plus the number of direct children for
a directory, one for every other node. -/
def hard_link_count : tree_node_t → Nat
  | .dir _ _ _ _ _ ch => 2 + ch.length
  | _ => 1

mutual
/-- Number of nodes in the subtree rooted at a node. -/
def tree_count : tree_node_t → Nat
  | .dir _ _ _ _ _ ch => 1 + forest_count ch
  | _ => 1

/-- Number of nodes in a forest. -/
def forest_count : List tree_node_t → Nat
  | [] => 0
  | c :: cs => tree_count c + forest_count cs
end

/-! SquashFS inode type enumerators. -/

def SQFS_INODE_DIR : Nat := 1
def SQFS_INODE_FILE : Nat := 2
def SQFS_INODE_SLINK : Nat := 3
def SQFS_INODE_BDEV : Nat := 4
def SQFS_INODE_CDEV : Nat := 5
def SQFS_INODE_FIFO : Nat := 6
def SQFS_INODE_SOCKET : Nat := 7
def SQFS_INODE_EXT_DIR : Nat := 8
def SQFS_INODE_EXT_FILE : Nat := 9

/-! The annotated tree produced by serialization: the fields that
write_inode stores back onto each tree node, with the annotated children
kept so that tree-shaped invariants can be stated. -/

inductive ainode where
  | mk (name : String) (itype inode_num inode_ref : Nat) (children : List ainode)

def ainode.name : ainode → String
  | .mk nm _ _ _ _ => nm

def ainode.itype : ainode → Nat
  | .mk _ it _ _ _ => it

def ainode.inode_num : ainode → Nat
  | .mk _ _ num _ _ => num

def ainode.inode_ref : ainode → Nat
  | .mk _ _ _ ref _ => ref

def ainode.children : ainode → List ainode
  | .mk _ _ _ _ ch => ch

/-- The dirent_source fields that write_dir reads from an annotated child. -/
def ainode.toSrc (a : ainode) : dirent_source :=
  ⟨a.inode_ref, a.inode_num, a.itype, a.name⟩

mutual
/-- All inode numbers occurring in an annotated subtree, own number first. -/
def ainode.nums : ainode → List Nat
  | .mk _ _ num _ ch => num :: ainode.numsList ch

def ainode.numsList : List ainode → List Nat
  | [] => []
  | a :: as => ainode.nums a ++ ainode.numsList as
end

mutual
/-- Post-order numbering check: every node carries a number strictly
greater than every number in the subtrees of its children. -/
def ainode.post_ordB : ainode → Bool
  | .mk _ _ num _ ch => ainode.post_listB num ch

def ainode.post_listB : Nat → List ainode → Bool
  | _, [] => true
  | num, a :: as =>
      ainode.post_ordB a && (ainode.nums a).all (fun m => decide (m < num)) &&
      ainode.post_listB num as
end

/-! The serializer of meta.c. -/

/-- The super block fields touched by the serializer. -/
structure sqfs_super_t where
  inode_count : Nat
  block_size : Nat
  bytes_used : Nat
  inode_table_start : Nat
  directory_table_start : Nat
  root_inode_ref : Nat

/-- External collaborators consumed by write_inode, modelled from the
spec: the configured default mtime, the id-table interning maps that
resolve a uid or gid to its table index, and the compressor. -/
structure sqfs_cfg_t where
  def_mtime : Nat
  uid_index : Nat → Nat
  gid_index : Nat → Nat
  cmp : List Nat → List Nat

/-- The mutable pieces of sqfs_info_t threaded through serialization,
plus a ghost trace of the inode numbers in assignment order. -/
structure serializer_state where
  inode_counter : Nat
  super : sqfs_super_t
  im : meta_writer_t
  dm : meta_writer_t
  log : List Nat

/-- The common first part of every serialized inode record, little-endian
packed: type, mode, uid index, gid index, mod_time, inode_number. The
mod_time written is always the configured default mtime. -/
def inode_base_bytes (cfg : sqfs_cfg_t) (itype mode uid_idx gid_idx inum : Nat) : List Nat :=
  encodeU16 itype ++ encodeU16 mode ++ encodeU16 uid_idx ++ encodeU16 gid_idx ++
  encodeU32 cfg.def_mtime ++ encodeU32 inum

/-- Emission step shared by every write_inode branch: advance the inode
counter and the super block inode count, append the little-endian base
record followed by the variant tail to the inode meta-writer, install the
updated directory meta-writer, extend the ghost number log, and build the
annotation carrying the chosen type, the assigned number and the
inode_ref captured from the inode meta-writer cursor before the append. -/
def wi_emit (cfg : sqfs_cfg_t) (st : serializer_state) (anns : List ainode)
    (n : tree_node_t) (itype : Nat) (tl : List Nat) (dm2 : meta_writer_t) :
    serializer_state × ainode :=
  ({ st with inode_counter := st.inode_counter + 1,
             super := { st.super with inode_count := st.super.inode_count + 1 },
             im := meta_writer_append cfg.cmp st.im
               (inode_base_bytes cfg itype n.mode (cfg.uid_index n.uid % 65536)
                  (cfg.gid_index n.gid % 65536) st.inode_counter ++ tl),
             dm := dm2, log := st.log ++ [st.inode_counter] },
   ainode.mk n.name itype st.inode_counter
     (((st.im.block_offset <<< 16) ||| st.im.offset) % 18446744073709551616) anns)

/-- write_inode of meta.c for one node whose children are already
annotated: intern uid and gid, capture the inode meta-writer cursor as
inode_ref, assign the next inode number, bump the super block inode
count, choose the narrow or extended variant, and append the record to
the inode meta-writer; for directories the listing is first emitted into
the directory meta-writer by write_dir. The parent argument carries the
value found in the parent inode_num field at this time, or none for the
root, for which the C expression yields one. -/
def write_inode (cfg : sqfs_cfg_t) (st : serializer_state) (parent : Option Nat)
    (n : tree_node_t) (anns : List ainode) : serializer_state × ainode :=
  let pnum := parent.getD 1
  let hl := hard_link_count n
  match n with
  | tree_node_t.dir _ _ _ _ _ _ =>
      let wd := write_dir cfg.cmp st.dm (anns.map ainode.toSrc)
      let di := wd.2
      if di.start_block > 4294967295 ∨ di.size > 65535 then
        wi_emit cfg st anns n SQFS_INODE_EXT_DIR
          (encodeU32 hl ++ encodeU32 di.size ++ encodeU32 di.start_block ++
           encodeU32 pnum ++ encodeU16 0 ++ encodeU16 di.block_offset ++
           encodeU32 4294967295) wd.1
      else
        wi_emit cfg st anns n SQFS_INODE_DIR
          (encodeU32 di.start_block ++ encodeU32 hl ++ encodeU16 di.size ++
           encodeU16 di.block_offset ++ encodeU32 pnum) wd.1
  | tree_node_t.file _ _ _ _ _ fi =>
      let bsz := (List.range (fi.size / st.super.block_size)).map
        (fun i => fi.blocksizes.getD i 0)
      if fi.startblock > 4294967295 ∨ fi.size > 4294967295 ∨ hl > 1 then
        wi_emit cfg st anns n SQFS_INODE_EXT_FILE
          (encodeU64 fi.startblock ++ encodeU64 fi.size ++
           encodeU64 18446744073709551615 ++ encodeU32 hl ++
           encodeU32 fi.fragment ++ encodeU32 fi.fragment_offset ++
           encodeU32 4294967295 ++ bsz.flatMap encodeU32) st.dm
      else
        wi_emit cfg st anns n SQFS_INODE_FILE
          (encodeU32 fi.startblock ++ encodeU32 fi.fragment ++
           encodeU32 fi.fragment_offset ++ encodeU32 fi.size ++
           bsz.flatMap encodeU32) st.dm
  | tree_node_t.slink _ _ _ _ _ target =>
      wi_emit cfg st anns n SQFS_INODE_SLINK
        (encodeU32 hl ++ encodeU32 target.length ++ strBytes target) st.dm
  | tree_node_t.bdev _ _ _ _ _ devno =>
      wi_emit cfg st anns n SQFS_INODE_BDEV (encodeU32 hl ++ encodeU32 devno) st.dm
  | tree_node_t.cdev _ _ _ _ _ devno =>
      wi_emit cfg st anns n SQFS_INODE_CDEV (encodeU32 hl ++ encodeU32 devno) st.dm
  | tree_node_t.fifo _ _ _ _ _ =>
      wi_emit cfg st anns n SQFS_INODE_FIFO (encodeU32 hl) st.dm
  | tree_node_t.sock _ _ _ _ _ =>
      wi_emit cfg st anns n SQFS_INODE_SOCKET (encodeU32 hl) st.dm

/-- The second loop of write_child_inodes: serialize the inode of every
direct child in list order, pairing each child with the annotations of
its own children computed by the first loop. -/
def wci_phase2 (cfg : sqfs_cfg_t) : serializer_state → List tree_node_t →
    List (List ainode) → serializer_state × List ainode
  | st, [], _ => (st, [])
  | st, c :: cs, anns =>
      let r1 := write_inode cfg st (some 0) c (anns.headD [])
      let r2 := wci_phase2 cfg r1.1 cs anns.tail
      (r2.1, r1.2 :: r2.2)

/-- The first loop of write_child_inodes: for every directory child,
recursively run write_child_inodes on it, collecting the annotated
children of each member. The has_subdirs pre-scan of the C code only
short-circuits an empty loop and has no further effect. -/
def wci_phase1 (cfg : sqfs_cfg_t) : serializer_state → List tree_node_t →
    serializer_state × List (List ainode)
  | st, [] => (st, [])
  | st, tree_node_t.dir _ _ _ _ _ gc :: cs =>
      let r1 := wci_phase1 cfg st gc
      let r2 := wci_phase2 cfg r1.1 gc r1.2
      let r3 := wci_phase1 cfg r2.1 cs
      (r3.1, r2.2 :: r3.2)
  | st, _ :: cs =>
      let r := wci_phase1 cfg st cs
      (r.1, [] :: r.2)
termination_by _ l => sizeOf l

/-- write_child_inodes of meta.c: first serialize everything strictly
below the children of the given node, then serialize the children
themselves in list order. -/
def write_child_inodes (cfg : sqfs_cfg_t) (st : serializer_state)
    (n : tree_node_t) : serializer_state × List ainode :=
  let r1 := wci_phase1 cfg st n.children
  wci_phase2 cfg r1.1 n.children r1.2

/-- The image-level pieces of sqfs_info_t. -/
structure sqfs_info_t where
  super : sqfs_super_t
  image : List Nat
  root : tree_node_t

/-- The outcome of sqfs_write_inodes, with the final meta-writers and the
annotated tree exposed so that properties can be stated about them. -/
structure sqfs_write_result where
  info : sqfs_info_t
  root_ann : ainode
  children_ann : List ainode
  im : meta_writer_t
  dm : meta_writer_t
  log : List Nat

/-- sqfs_write_inodes of meta.c: starting the inode counter at two,
serialize all strict descendants of the root, then the root itself, flush
both meta streams, record the root reference and the table start offsets
in the super block, and copy the directory stream, which was written to a
temporary file, into the image right after the inode stream, which was
written to the image directly. -/
def sqfs_write_inodes (cfg : sqfs_cfg_t) (info : sqfs_info_t) : sqfs_write_result :=
  let st0 : serializer_state := ⟨2, info.super, meta_writer_create, meta_writer_create, []⟩
  let r1 := write_child_inodes cfg st0 info.root
  let r2 := write_inode cfg r1.1 none info.root r1.2
  let st2 := r2.1
  let im2 := meta_writer_flush cfg.cmp st2.im
  let dm2 := meta_writer_flush cfg.cmp st2.dm
  let s1 := { st2.super with root_inode_ref := r2.2.inode_ref }
  let s2 := { s1 with inode_table_start := s1.bytes_used,
                      bytes_used := s1.bytes_used + im2.block_offset }
  let s3 := { s2 with directory_table_start := s2.bytes_used,
                      bytes_used := s2.bytes_used + dm2.block_offset }
  { info := ⟨s3, info.image ++ im2.out ++ dm2.out, info.root⟩,
    root_ann := r2.2, children_ann := r1.2, im := im2, dm := dm2, log := st2.log }

/-! The data-reader dump path of data_reader_dump.c, and write_retry of
write_retry.c. The write system call is modelled by a trace of results:
a number of bytes written, an interruption by a signal, or a failing
return of minus one with another errno. -/

inductive write_res where
  | ok (n : Nat)
  | eintr
  | err
deriving DecidableEq

/-- The while loop of append_block: a zero return only prints a message
and the loop continues without progress; a negative non-EINTR return
prints and then still adjusts the remaining size by the negative value in
size_t arithmetic; the only return statement yields zero once the size
reaches zero. The result is none when the trace is exhausted before that,
covering the diverging executions. -/
def append_block : List write_res → Nat → Option Int
  | _, 0 => some 0
  | [], _ + 1 => none
  | write_res.ok n :: rest, s + 1 => append_block rest (sub64 (s + 1) n)
  | write_res.eintr :: rest, s + 1 => append_block rest (s + 1)
  | write_res.err :: rest, s + 1 =>
      append_block rest ((s + 1 + 1) % 18446744073709551616)

/-- The while loop of write_retry: a zero return reports a truncated
write and returns minus one, a negative non-EINTR return reports the
error and returns minus one. -/
def write_retry : List write_res → Nat → Option Int
  | _, 0 => some 0
  | [], _ + 1 => none
  | write_res.ok 0 :: _, _ + 1 => some (-1)
  | write_res.ok (n + 1) :: rest, s + 1 => write_retry rest (sub64 (s + 1) (n + 1))
  | write_res.eintr :: rest, s + 1 => write_retry rest (s + 1)
  | write_res.err :: _, _ + 1 => some (-1)

/-! The tar header decoder of read_header.c. -/

def TAR_TYPE_FILE : Char := '0'
def TAR_TYPE_LINK : Char := '1'
def TAR_TYPE_SLINK : Char := '2'
def TAR_TYPE_CHARDEV : Char := '3'
def TAR_TYPE_BLOCKDEV : Char := '4'
def TAR_TYPE_DIR : Char := '5'
def TAR_TYPE_FIFO : Char := '6'
def TAR_TYPE_GNU_SPARSE : Char := 'S'

/-- PAX override bits, modelled as a bitmask as in the tar reader. -/
def PAX_NAME : Nat := 1
def PAX_SIZE : Nat := 2
def PAX_UID : Nat := 4
def PAX_GID : Nat := 8
def PAX_DEV_MAJ : Nat := 16
def PAX_DEV_MIN : Nat := 32
def PAX_MTIME : Nat := 64
def PAX_SLINK_TARGET : Nat := 128

def ETV_V7_UNIX : Nat := 0
def ETV_PRE_POSIX : Nat := 1
def ETV_POSIX : Nat := 2

/-- The raw ustar header fields consumed by decode_header; the numeric
fields are kept as their character-string content, parsed through the
abstract readers below. -/
structure tar_header_t where
  name : String
  mode : String
  uid : String
  gid : String
  size : String
  mtime : String
  typeflag : Char
  linkname : String
  pfx : String
  devmajor : String
  devminor : String

/-- The stat fields of the decoded header that decode_header fills. -/
structure stat_t where
  st_mode : Nat
  st_uid : Nat
  st_gid : Nat
  st_rdev_major : Nat
  st_rdev_minor : Nat
deriving DecidableEq

structure tar_header_decoded_t where
  sb : stat_t
  name : String
  link_target : String
  record_size : Nat
  mtime : Int
  unknown_record : Bool
deriving DecidableEq

/-- Two-complement negation of a 64-bit value as in the mtime decoding. -/
def neg64 (v : Nat) : Nat :=
  (18446744073709551616 - v % 18446744073709551616) % 18446744073709551616

/-- decode_header of read_header.c. The functions readNum and readOct
stand for read_number and read_octal of the tar reader, which are outside
the embedded sources; only their success or failure and their value are
relevant here. The decoded record out0 carries the values already set by
preceding PAX headers; fields whose PAX bit is set keep them. For the
hard-link and symlink type flags the link target comes from the header
linkname field unless a PAX linkpath was given, and the mode is
overwritten with the symlink file type and full permissions. -/
def decode_header (readNum : String → Option Nat) (readOct : String → Option Nat)
    (hdr : tar_header_t) (set_by_pax : Nat) (version : Nat)
    (out0 : tar_header_decoded_t) : Option tar_header_decoded_t :=
  let name1 :=
    if set_by_pax &&& PAX_NAME = 0 then
      if hdr.pfx ≠ "" ∧ version = ETV_POSIX then hdr.pfx ++ "/" ++ hdr.name
      else hdr.name
    else out0.name
  (if set_by_pax &&& PAX_SIZE = 0 then readNum hdr.size
   else some out0.record_size).bind (fun rsize =>
  (if set_by_pax &&& PAX_UID = 0 then readNum hdr.uid
   else some out0.sb.st_uid).bind (fun uid1 =>
  (if set_by_pax &&& PAX_GID = 0 then readNum hdr.gid
   else some out0.sb.st_gid).bind (fun gid1 =>
  (if set_by_pax &&& PAX_DEV_MAJ = 0 then readNum hdr.devmajor
   else some out0.sb.st_rdev_major).bind (fun dmaj =>
  (if set_by_pax &&& PAX_DEV_MIN = 0 then readNum hdr.devminor
   else some out0.sb.st_rdev_minor).bind (fun dmin =>
  (if set_by_pax &&& PAX_MTIME = 0 then
     (readNum hdr.mtime).bind (fun field =>
       if field &&& 9223372036854775808 ≠ 0 then
         some (-(Int.ofNat (neg64 field)))
       else some (Int.ofNat field))
   else some out0.mtime).bind (fun mtime1 =>
  (readOct hdr.mode).bind (fun field =>
  let m0 := field &&& 4095
  let ltarget :=
    if (hdr.typeflag = TAR_TYPE_LINK ∨ hdr.typeflag = TAR_TYPE_SLINK) ∧
       set_by_pax &&& PAX_SLINK_TARGET = 0 then hdr.linkname
    else out0.link_target
  let mode2 :=
    if hdr.typeflag = '\x00' ∨ hdr.typeflag = TAR_TYPE_FILE ∨
       hdr.typeflag = TAR_TYPE_GNU_SPARSE then m0 ||| S_IFREG
    else if hdr.typeflag = TAR_TYPE_LINK then S_IFLNK ||| 511
    else if hdr.typeflag = TAR_TYPE_SLINK then S_IFLNK ||| 511
    else if hdr.typeflag = TAR_TYPE_CHARDEV then m0 ||| S_IFCHR
    else if hdr.typeflag = TAR_TYPE_BLOCKDEV then m0 ||| S_IFBLK
    else if hdr.typeflag = TAR_TYPE_DIR then m0 ||| S_IFDIR
    else if hdr.typeflag = TAR_TYPE_FIFO then m0 ||| S_IFIFO
    else m0
  let unknown :=
    ¬(hdr.typeflag = '\x00' ∨ hdr.typeflag = TAR_TYPE_FILE ∨
      hdr.typeflag = TAR_TYPE_GNU_SPARSE ∨ hdr.typeflag = TAR_TYPE_LINK ∨
      hdr.typeflag = TAR_TYPE_SLINK ∨ hdr.typeflag = TAR_TYPE_CHARDEV ∨
      hdr.typeflag = TAR_TYPE_BLOCKDEV ∨ hdr.typeflag = TAR_TYPE_DIR ∨
      hdr.typeflag = TAR_TYPE_FIFO)
  some { sb := ⟨mode2, uid1, gid1, dmaj, dmin⟩,
         name := name1, link_target := ltarget, record_size := rsize,
         mtime := mtime1, unknown_record := decide unknown })))))))

/-! Auxiliary definitions used by the statements and proofs. -/

/-- The number of inodes serialized by the first write_child_inodes loop
over a child list: everything strictly below each member. -/
def p1_count : List tree_node_t → Nat
  | [] => 0
  | c :: cs => forest_count c.children + p1_count cs

/-- How one serializer state evolves into another: the counter advances
by k, the ghost log gains exactly the k consecutive numbers starting at
the old counter, the super block only gains k to its inode count, and
both meta-writers only have bytes appended. -/
def Evolves (cfg : sqfs_cfg_t) (st st2 : serializer_state) (k : Nat) : Prop :=
  st2.inode_counter = st.inode_counter + k ∧
  st2.log = st.log ++ List.range' st.inode_counter k ∧
  st2.super.inode_count = st.super.inode_count + k ∧
  st2.super.block_size = st.super.block_size ∧
  st2.super.bytes_used = st.super.bytes_used ∧
  st2.super.inode_table_start = st.super.inode_table_start ∧
  st2.super.directory_table_start = st.super.directory_table_start ∧
  st2.super.root_inode_ref = st.super.root_inode_ref ∧
  (∃ bs, st2.im = meta_writer_append cfg.cmp st.im bs) ∧
  (∃ bs, st2.dm = meta_writer_append cfg.cmp st.dm bs)

/-- All numbers of an annotated subtree lie in the half-open window. -/
def ann_in_range (lb ub : Nat) (a : ainode) : Prop :=
  ∀ m ∈ a.nums, lb ≤ m ∧ m < ub

/-- Replace the mtime field of a node, leaving everything else unchanged. -/
def set_mtime (t : Nat) : tree_node_t → tree_node_t
  | .dir nm p u g _ ch => .dir nm p u g t ch
  | .file nm p u g _ fi => .file nm p u g t fi
  | .slink nm p u g _ tg => .slink nm p u g t tg
  | .bdev nm p u g _ d => .bdev nm p u g t d
  | .cdev nm p u g _ d => .cdev nm p u g t d
  | .fifo nm p u g _ => .fifo nm p u g t
  | .sock nm p u g _ => .sock nm p u g t

def dirent_default : dirent_source := ⟨0, 0, 0, ""⟩

/-- Well-formedness of one emitted directory group: a nonempty run of at
most SQFS_MAX_DIR_ENT entries whose header stores the capped run length
minus one, the upper inode_ref bits and the inode number of the first run
member, with every member agreeing with the first on the upper inode_ref
bits and lying within the unsigned 16-bit window of its inode number. -/
def group_okB (g : sqfs_dir_header_t × List dirent_source) : Bool :=
  match g.2 with
  | [] => false
  | b :: _ =>
      decide (g.2.length ≤ 256) &&
      decide (g.1 = ⟨(g.2.length - 1) % 4294967296, (b.inode_ref >>> 16) % 4294967296,
                     b.inode_num % 4294967296⟩) &&
      g.2.all (fun e =>
        decide (e.inode_ref >>> 16 = b.inode_ref >>> 16) &&
        decide (sub32 e.inode_num b.inode_num ≤ 65535))

/-- Maximality of a group boundary: the run before it was full, or the
base of the next group differs from the previous base in the upper
inode_ref bits or exceeds the unsigned 16-bit inode-number window. -/
def group_breakB (g1 g2 : sqfs_dir_header_t × List dirent_source) : Bool :=
  let b1 := g1.2.headD dirent_default
  let b2 := g2.2.headD dirent_default
  decide (g1.2.length = 256) ||
  decide (b2.inode_ref >>> 16 ≠ b1.inode_ref >>> 16) ||
  decide (sub32 b2.inode_num b1.inode_num > 65535)

/-! Concrete instances used in counterexamples and witnesses. -/

/-- A trivial configuration: default mtime zero, ids interned to zero,
and a compressor that never shrinks, so blocks are stored uncompressed. -/
def cfg0 : sqfs_cfg_t := ⟨0, fun _ => 0, fun _ => 0, fun l => l⟩

/-- A source tree consisting only of the root directory. -/
def root_only : tree_node_t := tree_node_t.dir "" 493 0 0 0 []

/-- An image state holding 96 bytes (the super block) before serialization. -/
def info0 : sqfs_info_t := ⟨⟨0, 131072, 96, 0, 0, 0⟩, List.replicate 96 0, root_only⟩

/-- Directory children for a 300-entry listing: consecutive inode numbers
and a common upper inode_ref part. -/
def l300 : List dirent_source := (List.range 300).map (fun i => ⟨0, 2 + i, 1, "x"⟩)

/-- Two children whose inode-number difference is 40000: beyond the
signed 16-bit range but within the unsigned 16-bit range. -/
def cxA : dirent_source := ⟨0, 2, 1, "a"⟩

def cxB : dirent_source := ⟨0, 40002, 1, "b"⟩

/-- A small child list used as a witness input for the delta encoding. -/
def c4l : List dirent_source := [⟨0, 2, 1, "ab"⟩, ⟨0, 5, 1, "xyz"⟩]

/-- A write trace with an interleaved zero-length write result. -/
def ztr : List write_res := [write_res.ok 2, write_res.ok 0, write_res.ok 3]

/-- A concrete ustar header of a hard-link entry. -/
def hdr1 : tar_header_t :=
  ⟨"f", "0644", "0", "0", "0", "0", '1', "target", "", "0", "0"⟩

/-- An empty decoded record, as after memset in read_header. -/
def out_zero : tar_header_decoded_t := ⟨⟨0, 0, 0, 0, 0⟩, "", "", 0, 0, false⟩

/-- A parser stub accepting every numeric field as zero. -/
def readZero : String → Option Nat := fun _ => some 0

/-! Basic lemmas about the meta-writer. -/

theorem encodeU16_length (v : Nat) : (encodeU16 v).length = 2 := rfl

theorem meta_writer_append_nil (cmp : List Nat → List Nat) (m : meta_writer_t) :
    meta_writer_append cmp m [] = m := rfl

theorem meta_writer_append_append (cmp : List Nat → List Nat) (m : meta_writer_t)
    (a b : List Nat) :
    meta_writer_append cmp (meta_writer_append cmp m a) b =
      meta_writer_append cmp m (a ++ b) := by
  simp [meta_writer_append, List.foldl_append]

theorem meta_writer_flush_inv (cmp : List Nat → List Nat) (m : meta_writer_t)
    (h : m.block_offset = m.out.length) :
    (meta_writer_flush cmp m).block_offset = (meta_writer_flush cmp m).out.length := by
  unfold meta_writer_flush
  split
  · exact h
  · simp [h, encodeU16_length]
    omega

theorem mw_push_inv (cmp : List Nat → List Nat) (m : meta_writer_t) (b : Nat)
    (h : m.block_offset = m.out.length) :
    (mw_push cmp m b).block_offset = (mw_push cmp m b).out.length := by
  have e : mw_push cmp m b =
      if (m.data ++ [b % 256]).length = 8192 then
        meta_writer_flush cmp ⟨m.data ++ [b % 256], m.block_offset, m.out⟩
      else ⟨m.data ++ [b % 256], m.block_offset, m.out⟩ := rfl
  rw [e]
  split
  · exact meta_writer_flush_inv cmp ⟨m.data ++ [b % 256], m.block_offset, m.out⟩ h
  · exact h

theorem meta_writer_append_inv (cmp : List Nat → List Nat) (bs : List Nat)
    (m : meta_writer_t) (h : m.block_offset = m.out.length) :
    (meta_writer_append cmp m bs).block_offset =
      (meta_writer_append cmp m bs).out.length := by
  induction bs generalizing m with
  | nil => exact h
  | cons b rest ih =>
      exact ih (mw_push cmp m b) (mw_push_inv cmp m b h)

/-! The directory meta-writer is only appended to by write_dir. -/

theorem foldl_mw_append {α : Type} (cmp : List Nat → List Nat)
    (step : meta_writer_t → α → meta_writer_t)
    (h : ∀ m x, ∃ bs, step m x = meta_writer_append cmp m bs) :
    ∀ (l : List α) (m : meta_writer_t),
      ∃ bs, l.foldl step m = meta_writer_append cmp m bs := by
  intro l
  induction l with
  | nil => exact fun m => ⟨[], rfl⟩
  | cons x xs ih =>
      intro m
      obtain ⟨b1, hb1⟩ := h m x
      obtain ⟨b2, hb2⟩ := ih (step m x)
      refine ⟨b1 ++ b2, ?_⟩
      calc List.foldl step m (x :: xs) = List.foldl step (step m x) xs := rfl
        _ = meta_writer_append cmp (step m x) b2 := hb2
        _ = meta_writer_append cmp (meta_writer_append cmp m b1) b2 := by rw [hb1]
        _ = meta_writer_append cmp m (b1 ++ b2) := meta_writer_append_append cmp m b1 b2

theorem write_dir_dm (cmp : List Nat → List Nat) (dm : meta_writer_t)
    (children : List dirent_source) :
    ∃ bs, (write_dir cmp dm children).1 = meta_writer_append cmp dm bs := by
  unfold write_dir
  refine foldl_mw_append cmp _ ?_ (write_dir_groups children) dm
  intro m g
  have inner : ∀ (run : List dirent_source) (mm : meta_writer_t),
      ∃ bs, run.foldl (fun mm e =>
          meta_writer_append cmp
            (meta_writer_append cmp mm (encode_dir_entry (mk_entry g.1.inode_number e)))
            (strBytes e.name)) mm = meta_writer_append cmp mm bs := by
    refine foldl_mw_append cmp _ ?_
    intro mm e
    exact ⟨encode_dir_entry (mk_entry g.1.inode_number e) ++ strBytes e.name,
      meta_writer_append_append cmp mm _ _⟩
  obtain ⟨bs, hbs⟩ := inner g.2 (meta_writer_append cmp m (encode_dir_header g.1))
  exact ⟨encode_dir_header g.1 ++ bs,
    hbs.trans (meta_writer_append_append cmp m (encode_dir_header g.1) bs)⟩

/-! The shape of a single write_inode step. -/

theorem write_inode_shape (cfg : sqfs_cfg_t) (st : serializer_state)
    (p : Option Nat) (n : tree_node_t) (anns : List ainode) :
    ∃ it tl dm2, (∃ bs, dm2 = meta_writer_append cfg.cmp st.dm bs) ∧
      write_inode cfg st p n anns = wi_emit cfg st anns n it tl dm2 := by
  cases n with
  | dir nm pm u g t ch =>
      simp only [write_inode]
      split
      · exact ⟨_, _, _, write_dir_dm cfg.cmp st.dm _, rfl⟩
      · exact ⟨_, _, _, write_dir_dm cfg.cmp st.dm _, rfl⟩
  | file nm pm u g t fi =>
      simp only [write_inode]
      split
      · exact ⟨_, _, _, ⟨[], rfl⟩, rfl⟩
      · exact ⟨_, _, _, ⟨[], rfl⟩, rfl⟩
  | slink nm pm u g t tg => exact ⟨_, _, _, ⟨[], rfl⟩, rfl⟩
  | bdev nm pm u g t d => exact ⟨_, _, _, ⟨[], rfl⟩, rfl⟩
  | cdev nm pm u g t d => exact ⟨_, _, _, ⟨[], rfl⟩, rfl⟩
  | fifo nm pm u g t => exact ⟨_, _, _, ⟨[], rfl⟩, rfl⟩
  | sock nm pm u g t => exact ⟨_, _, _, ⟨[], rfl⟩, rfl⟩

/-! Projections of the emission step. -/

theorem wi_emit_counter (cfg : sqfs_cfg_t) (st : serializer_state) (anns : List ainode)
    (n : tree_node_t) (it : Nat) (tl : List Nat) (dm2 : meta_writer_t) :
    (wi_emit cfg st anns n it tl dm2).1.inode_counter = st.inode_counter + 1 := rfl

theorem wi_emit_log (cfg : sqfs_cfg_t) (st : serializer_state) (anns : List ainode)
    (n : tree_node_t) (it : Nat) (tl : List Nat) (dm2 : meta_writer_t) :
    (wi_emit cfg st anns n it tl dm2).1.log = st.log ++ [st.inode_counter] := rfl

theorem wi_emit_super (cfg : sqfs_cfg_t) (st : serializer_state) (anns : List ainode)
    (n : tree_node_t) (it : Nat) (tl : List Nat) (dm2 : meta_writer_t) :
    (wi_emit cfg st anns n it tl dm2).1.super =
      { st.super with inode_count := st.super.inode_count + 1 } := rfl

theorem wi_emit_im (cfg : sqfs_cfg_t) (st : serializer_state) (anns : List ainode)
    (n : tree_node_t) (it : Nat) (tl : List Nat) (dm2 : meta_writer_t) :
    (wi_emit cfg st anns n it tl dm2).1.im = meta_writer_append cfg.cmp st.im
      (inode_base_bytes cfg it n.mode (cfg.uid_index n.uid % 65536)
         (cfg.gid_index n.gid % 65536) st.inode_counter ++ tl) := by
  dsimp only [wi_emit]

theorem wi_emit_dm (cfg : sqfs_cfg_t) (st : serializer_state) (anns : List ainode)
    (n : tree_node_t) (it : Nat) (tl : List Nat) (dm2 : meta_writer_t) :
    (wi_emit cfg st anns n it tl dm2).1.dm = dm2 := rfl

theorem wi_emit_snd (cfg : sqfs_cfg_t) (st : serializer_state) (anns : List ainode)
    (n : tree_node_t) (it : Nat) (tl : List Nat) (dm2 : meta_writer_t) :
    (wi_emit cfg st anns n it tl dm2).2 =
      ainode.mk n.name it st.inode_counter
        (((st.im.block_offset <<< 16) ||| st.im.offset) % 18446744073709551616)
        anns := rfl

theorem write_inode_inode_num (cfg : sqfs_cfg_t) (st : serializer_state)
    (p : Option Nat) (n : tree_node_t) (anns : List ainode) :
    (write_inode cfg st p n anns).2.inode_num = st.inode_counter := by
  obtain ⟨it, tl, dm2, _, he⟩ := write_inode_shape cfg st p n anns
  rw [he, wi_emit_snd]
  rfl

theorem write_inode_inode_ref (cfg : sqfs_cfg_t) (st : serializer_state)
    (p : Option Nat) (n : tree_node_t) (anns : List ainode) :
    (write_inode cfg st p n anns).2.inode_ref =
      ((st.im.block_offset <<< 16) ||| st.im.offset) % 18446744073709551616 := by
  obtain ⟨it, tl, dm2, _, he⟩ := write_inode_shape cfg st p n anns
  rw [he, wi_emit_snd]
  rfl

theorem write_inode_children (cfg : sqfs_cfg_t) (st : serializer_state)
    (p : Option Nat) (n : tree_node_t) (anns : List ainode) :
    (write_inode cfg st p n anns).2.children = anns := by
  obtain ⟨it, tl, dm2, _, he⟩ := write_inode_shape cfg st p n anns
  rw [he, wi_emit_snd]
  rfl

/-! The Evolves relation. -/

theorem evolves_refl (cfg : sqfs_cfg_t) (st : serializer_state) :
    Evolves cfg st st 0 := by
  refine ⟨rfl, by simp [List.range'], rfl, rfl, rfl, rfl, rfl, rfl, ⟨[], rfl⟩, ⟨[], rfl⟩⟩

theorem evolves_trans (cfg : sqfs_cfg_t) (st st2 st3 : serializer_state)
    (k1 k2 : Nat) (h1 : Evolves cfg st st2 k1) (h2 : Evolves cfg st2 st3 k2) :
    Evolves cfg st st3 (k1 + k2) := by
  obtain ⟨c1, l1, i1, b1, u1, t1, d1, r1, ⟨ia, hia⟩, ⟨da, hda⟩⟩ := h1
  obtain ⟨c2, l2, i2, b2, u2, t2, d2, r2, ⟨ib, hib⟩, ⟨db, hdb⟩⟩ := h2
  refine ⟨by omega, ?_, by omega, by omega, by omega, by omega, by omega, by omega,
    ⟨ia ++ ib, ?_⟩, ⟨da ++ db, ?_⟩⟩
  · rw [l2, l1, c1, List.append_assoc]
    congr 1
    have := List.range'_append st.inode_counter k1 k2 1
    simp only [Nat.one_mul] at this
    rw [this, Nat.add_comm k2 k1]
  · rw [hib, hia, meta_writer_append_append]
  · rw [hdb, hda, meta_writer_append_append]

theorem write_inode_evolves (cfg : sqfs_cfg_t) (st : serializer_state)
    (p : Option Nat) (n : tree_node_t) (anns : List ainode) :
    Evolves cfg st (write_inode cfg st p n anns).1 1 := by
  obtain ⟨it, tl, dm2, ⟨bs, hbs⟩, he⟩ := write_inode_shape cfg st p n anns
  rw [he]
  refine ⟨wi_emit_counter cfg st anns n it tl dm2, ?_, ?_, ?_, ?_, ?_, ?_, ?_, ?_, ?_⟩
  · rw [wi_emit_log]
    simp [List.range']
  · rw [wi_emit_super]
  · rw [wi_emit_super]
  · rw [wi_emit_super]
  · rw [wi_emit_super]
  · rw [wi_emit_super]
  · rw [wi_emit_super]
  · rw [wi_emit_im]
    exact ⟨_, rfl⟩
  · rw [wi_emit_dm]
    exact ⟨bs, hbs⟩

theorem evolves_counter_le (cfg : sqfs_cfg_t) (st st2 : serializer_state) (k : Nat)
    (h : Evolves cfg st st2 k) : st.inode_counter ≤ st2.inode_counter := by
  obtain ⟨c, _⟩ := h
  omega

/-! Membership in the collected number lists. -/

theorem numsList_mem (m : Nat) : ∀ (l : List ainode),
    m ∈ ainode.numsList l ↔ ∃ a ∈ l, m ∈ a.nums := by
  intro l
  induction l with
  | nil => simp [ainode.numsList]
  | cons a as ih => simp [ainode.numsList, ih]

theorem nums_mk (nm : String) (it num ref : Nat) (ch : List ainode) :
    (ainode.mk nm it num ref ch).nums = num :: ainode.numsList ch := by
  rw [ainode.nums]

theorem post_listB_iff (num : Nat) : ∀ (l : List ainode),
    ainode.post_listB num l = true ↔
      ∀ a ∈ l, a.post_ordB = true ∧ ∀ m ∈ a.nums, m < num := by
  intro l
  induction l with
  | nil => simp [ainode.post_listB]
  | cons a as ih =>
      simp only [ainode.post_listB, Bool.and_eq_true, ih, List.all_eq_true,
        List.mem_cons, decide_eq_true_eq]
      constructor
      · rintro ⟨⟨hp, hn⟩, hr⟩ b hb
        rcases hb with rfl | hb
        · exact ⟨hp, hn⟩
        · exact hr b hb
      · intro h
        exact ⟨(h a (Or.inl rfl)), fun b hb => h b (Or.inr hb)⟩

theorem post_ordB_mk (nm : String) (it num ref : Nat) (ch : List ainode) :
    (ainode.mk nm it num ref ch).post_ordB = true ↔
      ∀ a ∈ ch, a.post_ordB = true ∧ ∀ m ∈ a.nums, m < num := by
  rw [ainode.post_ordB]
  exact post_listB_iff num ch

theorem ann_in_range_mono (lb ub lb2 ub2 : Nat) (a : ainode)
    (h : ann_in_range lb ub a) (h1 : lb2 ≤ lb) (h2 : ub ≤ ub2) :
    ann_in_range lb2 ub2 a := by
  intro m hm
  obtain ⟨x, y⟩ := h m hm
  omega

/-! Further per-step facts about write_inode. -/

theorem write_inode_nums (cfg : sqfs_cfg_t) (st : serializer_state)
    (p : Option Nat) (n : tree_node_t) (anns : List ainode) :
    (write_inode cfg st p n anns).2.nums =
      st.inode_counter :: ainode.numsList anns := by
  obtain ⟨it, tl, dm2, _, he⟩ := write_inode_shape cfg st p n anns
  rw [he, wi_emit_snd, nums_mk]

theorem write_inode_post (cfg : sqfs_cfg_t) (st : serializer_state)
    (p : Option Nat) (n : tree_node_t) (anns : List ainode)
    (h : ∀ a ∈ anns, a.post_ordB = true ∧ ∀ m ∈ a.nums, m < st.inode_counter) :
    (write_inode cfg st p n anns).2.post_ordB = true := by
  obtain ⟨it, tl, dm2, _, he⟩ := write_inode_shape cfg st p n anns
  rw [he, wi_emit_snd]
  exact (post_ordB_mk _ _ _ _ _).mpr h

/-! Counting nodes. -/

theorem tree_count_eq (c : tree_node_t) :
    tree_count c = 1 + forest_count c.children := by
  cases c <;> simp [tree_count, tree_node_t.children, forest_count]

theorem forest_count_eq_p1 (l : List tree_node_t) :
    forest_count l = p1_count l + l.length := by
  induction l with
  | nil => rfl
  | cons c cs ih =>
      have hc := tree_count_eq c
      simp only [forest_count, p1_count, ih, List.length_cons]
      omega

/-! The second serialization loop. -/

theorem wci_phase2_evolves (cfg : sqfs_cfg_t) :
    ∀ (l : List tree_node_t) (st : serializer_state) (anns : List (List ainode)),
      Evolves cfg st (wci_phase2 cfg st l anns).1 l.length := by
  intro l
  induction l with
  | nil =>
      intro st anns
      simpa [wci_phase2] using evolves_refl cfg st
  | cons c cs ih =>
      intro st anns
      have h1 := write_inode_evolves cfg st (some 0) c (anns.headD [])
      have h2 := ih (write_inode cfg st (some 0) c (anns.headD [])).1 anns.tail
      have h3 := evolves_trans cfg _ _ _ _ _ h1 h2
      have e : (1 : Nat) + cs.length = (c :: cs).length := by
        simp [Nat.add_comm]
      rw [e] at h3
      simpa [wci_phase2] using h3

theorem wci_phase2_anns (cfg : sqfs_cfg_t) (lb : Nat) :
    ∀ (l : List tree_node_t) (st : serializer_state) (anns : List (List ainode)),
      lb ≤ st.inode_counter →
      (∀ al ∈ anns, ∀ a ∈ al, ann_in_range lb st.inode_counter a ∧ a.post_ordB = true) →
      ∀ a ∈ (wci_phase2 cfg st l anns).2,
        ann_in_range lb (wci_phase2 cfg st l anns).1.inode_counter a ∧
        a.post_ordB = true := by
  intro l
  induction l with
  | nil =>
      intro st anns _ _ a ha
      simp [wci_phase2] at ha
  | cons c cs ih =>
      intro st anns hlb H a ha
      have HH : ∀ a2 ∈ anns.headD [], ann_in_range lb st.inode_counter a2 ∧
          a2.post_ordB = true := by
        cases anns with
        | nil => intro a2 ha2; simp at ha2
        | cons al rest => exact H al (List.mem_cons_self al rest)
      have hc1 : (write_inode cfg st (some 0) c (anns.headD [])).1.inode_counter =
          st.inode_counter + 1 :=
        (write_inode_evolves cfg st (some 0) c (anns.headD [])).1
      have hfin := (wci_phase2_evolves cfg cs
        (write_inode cfg st (some 0) c (anns.headD [])).1 anns.tail).1
      simp only [wci_phase2, List.mem_cons] at ha ⊢
      rcases ha with rfl | ha
      · constructor
        · intro m hm
          rw [write_inode_nums] at hm
          rcases List.mem_cons.mp hm with rfl | hm
          · omega
          · obtain ⟨a2, ha2, hm2⟩ := (numsList_mem m _).mp hm
            have := (HH a2 ha2).1 m hm2
            omega
        · refine write_inode_post cfg st (some 0) c (anns.headD []) ?_
          intro a2 ha2
          refine ⟨(HH a2 ha2).2, fun m hm => ((HH a2 ha2).1 m hm).2⟩
      · have H2 : ∀ al ∈ anns.tail, ∀ a2 ∈ al,
            ann_in_range lb (write_inode cfg st (some 0) c
              (anns.headD [])).1.inode_counter a2 ∧ a2.post_ordB = true := by
          intro al hal a2 ha2
          have := H al (List.mem_of_mem_tail hal) a2 ha2
          exact ⟨ann_in_range_mono lb st.inode_counter lb _ a2 this.1 le_rfl
            (by omega), this.2⟩
        exact ih _ anns.tail (by omega) H2 a ha

/-! The first serialization loop. -/

theorem wci_phase1_evolves (cfg : sqfs_cfg_t) :
    ∀ (st : serializer_state) (l : List tree_node_t),
      Evolves cfg st (wci_phase1 cfg st l).1 (p1_count l) := by
  intro st l
  induction st, l using wci_phase1.induct cfg with
  | case1 st => simpa [wci_phase1, p1_count] using evolves_refl cfg st
  | case2 st nm pm u g t gc cs r1 r2 ih1 ih2 =>
      have h2 := wci_phase2_evolves cfg gc (wci_phase1 cfg st gc).1 (wci_phase1 cfg st gc).2
      have h12 := evolves_trans cfg _ _ _ _ _ ih1 h2
      have h123 := evolves_trans cfg _ _ _ _ _ h12 ih2
      have e : p1_count gc + gc.length + p1_count cs =
          p1_count (tree_node_t.dir nm pm u g t gc :: cs) := by
        have := forest_count_eq_p1 gc
        simp only [p1_count, tree_node_t.children]
        omega
      rw [e] at h123
      simpa [wci_phase1] using h123
  | case3 st head cs hnd ih =>
      cases head with
      | dir nm pm u g t gc => exact absurd rfl (hnd nm pm u g t gc)
      | file nm pm u g t fi =>
          have e : p1_count (tree_node_t.file nm pm u g t fi :: cs) = p1_count cs := by
            simp [p1_count, tree_node_t.children, forest_count]
          rw [e]
          simpa [wci_phase1] using ih
      | slink nm pm u g t tg =>
          have e : p1_count (tree_node_t.slink nm pm u g t tg :: cs) = p1_count cs := by
            simp [p1_count, tree_node_t.children, forest_count]
          rw [e]
          simpa [wci_phase1] using ih
      | bdev nm pm u g t d =>
          have e : p1_count (tree_node_t.bdev nm pm u g t d :: cs) = p1_count cs := by
            simp [p1_count, tree_node_t.children, forest_count]
          rw [e]
          simpa [wci_phase1] using ih
      | cdev nm pm u g t d =>
          have e : p1_count (tree_node_t.cdev nm pm u g t d :: cs) = p1_count cs := by
            simp [p1_count, tree_node_t.children, forest_count]
          rw [e]
          simpa [wci_phase1] using ih
      | fifo nm pm u g t =>
          have e : p1_count (tree_node_t.fifo nm pm u g t :: cs) = p1_count cs := by
            simp [p1_count, tree_node_t.children, forest_count]
          rw [e]
          simpa [wci_phase1] using ih
      | sock nm pm u g t =>
          have e : p1_count (tree_node_t.sock nm pm u g t :: cs) = p1_count cs := by
            simp [p1_count, tree_node_t.children, forest_count]
          rw [e]
          simpa [wci_phase1] using ih

theorem wci_phase1_anns (cfg : sqfs_cfg_t) (lb : Nat) :
    ∀ (st : serializer_state) (l : List tree_node_t),
      lb ≤ st.inode_counter →
      ∀ al ∈ (wci_phase1 cfg st l).2, ∀ a ∈ al,
        ann_in_range lb (wci_phase1 cfg st l).1.inode_counter a ∧
        a.post_ordB = true := by
  intro st l
  induction st, l using wci_phase1.induct cfg with
  | case1 st =>
      intro _ al hal
      simp [wci_phase1] at hal
  | case2 st nm pm u g t gc cs r1 r2 ih1 ih2 =>
      intro hlb al hal a ha
      have hc1 : st.inode_counter ≤ (wci_phase1 cfg st gc).1.inode_counter :=
        evolves_counter_le cfg _ _ _ (wci_phase1_evolves cfg st gc)
      have hc2 := (wci_phase2_evolves cfg gc (wci_phase1 cfg st gc).1
        (wci_phase1 cfg st gc).2).1
      have hc3 : (wci_phase2 cfg (wci_phase1 cfg st gc).1 gc
            (wci_phase1 cfg st gc).2).1.inode_counter ≤
          (wci_phase1 cfg (wci_phase2 cfg (wci_phase1 cfg st gc).1 gc
            (wci_phase1 cfg st gc).2).1 cs).1.inode_counter :=
        evolves_counter_le cfg _ _ _ (wci_phase1_evolves cfg _ cs)
      have hr2 : r2.1.inode_counter = (wci_phase2 cfg (wci_phase1 cfg st gc).1 gc
          (wci_phase1 cfg st gc).2).1.inode_counter := rfl
      simp only [wci_phase1, List.mem_cons] at hal ⊢
      rcases hal with rfl | hal
      · have h := wci_phase2_anns cfg lb gc (wci_phase1 cfg st gc).1
          (wci_phase1 cfg st gc).2 (by omega) (ih1 hlb) a ha
        exact ⟨ann_in_range_mono lb _ lb _ a h.1 le_rfl hc3, h.2⟩
      · exact ih2 (by omega) al hal a ha
  | case3 st head cs hnd ih =>
      intro hlb al hal a ha
      cases head with
      | dir nm pm u g t gc => exact absurd rfl (hnd nm pm u g t gc)
      | file nm pm u g t fi =>
          simp only [wci_phase1, List.mem_cons] at hal ⊢
          rcases hal with rfl | hal
          · simp at ha
          · exact ih hlb al hal a ha
      | slink nm pm u g t tg =>
          simp only [wci_phase1, List.mem_cons] at hal ⊢
          rcases hal with rfl | hal
          · simp at ha
          · exact ih hlb al hal a ha
      | bdev nm pm u g t d =>
          simp only [wci_phase1, List.mem_cons] at hal ⊢
          rcases hal with rfl | hal
          · simp at ha
          · exact ih hlb al hal a ha
      | cdev nm pm u g t d =>
          simp only [wci_phase1, List.mem_cons] at hal ⊢
          rcases hal with rfl | hal
          · simp at ha
          · exact ih hlb al hal a ha
      | fifo nm pm u g t =>
          simp only [wci_phase1, List.mem_cons] at hal ⊢
          rcases hal with rfl | hal
          · simp at ha
          · exact ih hlb al hal a ha
      | sock nm pm u g t =>
          simp only [wci_phase1, List.mem_cons] at hal ⊢
          rcases hal with rfl | hal
          · simp at ha
          · exact ih hlb al hal a ha

/-! write_child_inodes: composition of the two loops. -/

theorem write_child_inodes_evolves (cfg : sqfs_cfg_t) (st : serializer_state)
    (n : tree_node_t) :
    Evolves cfg st (write_child_inodes cfg st n).1 (forest_count n.children) := by
  have h1 := wci_phase1_evolves cfg st n.children
  have h2 := wci_phase2_evolves cfg n.children (wci_phase1 cfg st n.children).1
    (wci_phase1 cfg st n.children).2
  have h := evolves_trans cfg _ _ _ _ _ h1 h2
  rw [← forest_count_eq_p1 n.children] at h
  exact h

theorem write_child_inodes_anns (cfg : sqfs_cfg_t) (lb : Nat)
    (st : serializer_state) (n : tree_node_t) (hlb : lb ≤ st.inode_counter) :
    ∀ a ∈ (write_child_inodes cfg st n).2,
      ann_in_range lb (write_child_inodes cfg st n).1.inode_counter a ∧
      a.post_ordB = true := by
  have hc1 : st.inode_counter ≤ (wci_phase1 cfg st n.children).1.inode_counter :=
    evolves_counter_le cfg _ _ _ (wci_phase1_evolves cfg st n.children)
  exact wci_phase2_anns cfg lb n.children (wci_phase1 cfg st n.children).1
    (wci_phase1 cfg st n.children).2 (by omega)
    (wci_phase1_anns cfg lb st n.children hlb)

/-! Strict monotonicity of consecutive ranges. -/

theorem chain'_lt_range' (s n : Nat) :
    List.Chain' (fun a b => a < b) (List.range' s n) := by
  induction n generalizing s with
  | zero => simp
  | succ k ih =>
      rw [List.range'_succ]
      cases k with
      | zero => simp
      | succ k2 =>
          rw [List.range'_succ]
          refine List.chain'_cons.mpr ⟨by omega, ?_⟩
          have h := ih (s + 1)
          rwa [List.range'_succ] at h

/-! Projections of a full serializer run. The serializer starts from the
counter value two, fresh meta-writers and an empty ghost log. -/

theorem sqfs_log (cfg : sqfs_cfg_t) (info : sqfs_info_t) :
    (sqfs_write_inodes cfg info).log =
      (write_inode cfg (write_child_inodes cfg
          ⟨2, info.super, meta_writer_create, meta_writer_create, []⟩ info.root).1
        none info.root (write_child_inodes cfg
          ⟨2, info.super, meta_writer_create, meta_writer_create, []⟩ info.root).2).1.log := by
  dsimp only [sqfs_write_inodes]

theorem sqfs_root_ann (cfg : sqfs_cfg_t) (info : sqfs_info_t) :
    (sqfs_write_inodes cfg info).root_ann =
      (write_inode cfg (write_child_inodes cfg
          ⟨2, info.super, meta_writer_create, meta_writer_create, []⟩ info.root).1
        none info.root (write_child_inodes cfg
          ⟨2, info.super, meta_writer_create, meta_writer_create, []⟩ info.root).2).2 := by
  dsimp only [sqfs_write_inodes]

theorem sqfs_im (cfg : sqfs_cfg_t) (info : sqfs_info_t) :
    (sqfs_write_inodes cfg info).im = meta_writer_flush cfg.cmp
      (write_inode cfg (write_child_inodes cfg
          ⟨2, info.super, meta_writer_create, meta_writer_create, []⟩ info.root).1
        none info.root (write_child_inodes cfg
          ⟨2, info.super, meta_writer_create, meta_writer_create, []⟩ info.root).2).1.im := by
  dsimp only [sqfs_write_inodes]

theorem sqfs_dm (cfg : sqfs_cfg_t) (info : sqfs_info_t) :
    (sqfs_write_inodes cfg info).dm = meta_writer_flush cfg.cmp
      (write_inode cfg (write_child_inodes cfg
          ⟨2, info.super, meta_writer_create, meta_writer_create, []⟩ info.root).1
        none info.root (write_child_inodes cfg
          ⟨2, info.super, meta_writer_create, meta_writer_create, []⟩ info.root).2).1.dm := by
  dsimp only [sqfs_write_inodes]

theorem sqfs_rref (cfg : sqfs_cfg_t) (info : sqfs_info_t) :
    (sqfs_write_inodes cfg info).info.super.root_inode_ref =
      (sqfs_write_inodes cfg info).root_ann.inode_ref := by
  dsimp only [sqfs_write_inodes]

theorem sqfs_its (cfg : sqfs_cfg_t) (info : sqfs_info_t) :
    (sqfs_write_inodes cfg info).info.super.inode_table_start =
      (write_inode cfg (write_child_inodes cfg
          ⟨2, info.super, meta_writer_create, meta_writer_create, []⟩ info.root).1
        none info.root (write_child_inodes cfg
          ⟨2, info.super, meta_writer_create, meta_writer_create, []⟩
          info.root).2).1.super.bytes_used := by
  dsimp only [sqfs_write_inodes]

theorem sqfs_dts (cfg : sqfs_cfg_t) (info : sqfs_info_t) :
    (sqfs_write_inodes cfg info).info.super.directory_table_start =
      (write_inode cfg (write_child_inodes cfg
          ⟨2, info.super, meta_writer_create, meta_writer_create, []⟩ info.root).1
        none info.root (write_child_inodes cfg
          ⟨2, info.super, meta_writer_create, meta_writer_create, []⟩
          info.root).2).1.super.bytes_used +
        (sqfs_write_inodes cfg info).im.block_offset := by
  dsimp only [sqfs_write_inodes]

theorem sqfs_bu (cfg : sqfs_cfg_t) (info : sqfs_info_t) :
    (sqfs_write_inodes cfg info).info.super.bytes_used =
      (sqfs_write_inodes cfg info).info.super.directory_table_start +
        (sqfs_write_inodes cfg info).dm.block_offset := by
  dsimp only [sqfs_write_inodes]

theorem sqfs_image (cfg : sqfs_cfg_t) (info : sqfs_info_t) :
    (sqfs_write_inodes cfg info).info.image =
      info.image ++ (sqfs_write_inodes cfg info).im.out ++
        (sqfs_write_inodes cfg info).dm.out := by
  dsimp only [sqfs_write_inodes]

theorem sqfs_run_evolves (cfg : sqfs_cfg_t) (info : sqfs_info_t) :
    Evolves cfg ⟨2, info.super, meta_writer_create, meta_writer_create, []⟩
      (write_inode cfg (write_child_inodes cfg
          ⟨2, info.super, meta_writer_create, meta_writer_create, []⟩ info.root).1
        none info.root (write_child_inodes cfg
          ⟨2, info.super, meta_writer_create, meta_writer_create, []⟩ info.root).2).1
      (forest_count info.root.children + 1) :=
  evolves_trans cfg _ _ _ _ _
    (write_child_inodes_evolves cfg _ info.root)
    (write_inode_evolves cfg _ none info.root _)

/-! Claim theorems. -/

/-- C1 counterexample: on the source tree consisting only of the root
directory, the serializer assigns the root directory inode number 2, not
1 as claimed, while the super block does report inode_count equal to 1
and the single inode is a narrow DIR inode. -/
theorem C1_root_number_counterexample :
    (sqfs_write_inodes cfg0 info0).root_ann.inode_num = 2 ∧
    ¬(sqfs_write_inodes cfg0 info0).root_ann.inode_num = 1 ∧
    (sqfs_write_inodes cfg0 info0).info.super.inode_count = 1 ∧
    (sqfs_write_inodes cfg0 info0).root_ann.itype = SQFS_INODE_DIR := by
  have h2 : (sqfs_write_inodes cfg0 info0).root_ann.inode_num = 2 := by
    simp only [sqfs_write_inodes, write_child_inodes, wci_phase1, wci_phase2,
      write_inode, info0, root_only, cfg0, tree_node_t.children]
    rfl
  refine ⟨h2, by rw [h2]; omega, ?_, ?_⟩
  · simp only [sqfs_write_inodes, write_child_inodes, wci_phase1, wci_phase2,
      write_inode, info0, root_only, cfg0, tree_node_t.children]
    rfl
  · simp only [sqfs_write_inodes, write_child_inodes, wci_phase1, wci_phase2,
      write_inode, info0, root_only, cfg0, tree_node_t.children, write_dir,
      write_dir_groups, write_dir_groupsF, wi_emit]
    rfl

/-- C1 as amended: inode numbers are assigned monotonically during
serialization, in post-order, so that a directory receives its number
after all of its children; the root is written last and receives the
highest number; numbering starts at 2, so the ghost log is exactly the
range from 2 of length the tree size, and for a source tree consisting
only of the root directory the image contains one DIR inode with inode
number 2 while the super block reports inode_count equal to 1. -/
theorem C1_inode_numbers_post_order (cfg : sqfs_cfg_t) (info : sqfs_info_t) :
    (sqfs_write_inodes cfg info).log = List.range' 2 (tree_count info.root) ∧
    List.Chain' (fun a b => a < b) ((sqfs_write_inodes cfg info).log) ∧
    (sqfs_write_inodes cfg info).root_ann.post_ordB = true ∧
    (sqfs_write_inodes cfg info).root_ann.inode_num = tree_count info.root + 1 ∧
    ((sqfs_write_inodes cfg info).root_ann.nums).all
      (fun m => decide (m ≤ tree_count info.root + 1)) = true ∧
    (sqfs_write_inodes cfg info).log.getLast? =
      some ((sqfs_write_inodes cfg info).root_ann.inode_num) ∧
    (sqfs_write_inodes cfg0 info0).root_ann.inode_num = 2 ∧
    (sqfs_write_inodes cfg0 info0).root_ann.itype = SQFS_INODE_DIR ∧
    (sqfs_write_inodes cfg0 info0).info.super.inode_count = 1 := by
  have hwc := write_child_inodes_evolves cfg
    ⟨2, info.super, meta_writer_create, meta_writer_create, []⟩ info.root
  have hanns := write_child_inodes_anns cfg 2
    ⟨2, info.super, meta_writer_create, meta_writer_create, []⟩ info.root le_rfl
  have hrun := sqfs_run_evolves cfg info
  have htc : tree_count info.root = 1 + forest_count info.root.children :=
    tree_count_eq info.root
  have hcnt : (write_child_inodes cfg
      ⟨2, info.super, meta_writer_create, meta_writer_create, []⟩
      info.root).1.inode_counter = 2 + forest_count info.root.children := hwc.1
  have hlog : (sqfs_write_inodes cfg info).log =
      List.range' 2 (forest_count info.root.children + 1) := by
    rw [sqfs_log]
    have h := hrun.2.1
    simpa using h
  have hnum : (sqfs_write_inodes cfg info).root_ann.inode_num =
      2 + forest_count info.root.children := by
    rw [sqfs_root_ann, write_inode_inode_num, hcnt]
  constructor
  · rw [hlog]
    congr 1
    omega
  constructor
  · rw [hlog]
    exact chain'_lt_range' 2 (forest_count info.root.children + 1)
  constructor
  · rw [sqfs_root_ann]
    refine write_inode_post cfg _ none info.root _ ?_
    intro a ha
    have h := hanns a ha
    refine ⟨h.2, fun m hm => ?_⟩
    have := h.1 m hm
    omega
  constructor
  · rw [hnum]
    omega
  constructor
  · rw [sqfs_root_ann, List.all_eq_true]
    intro m hm
    rw [write_inode_nums] at hm
    rcases List.mem_cons.mp hm with rfl | hm2
    · simp only [decide_eq_true_eq]
      omega
    · obtain ⟨a, ha, hma⟩ := (numsList_mem _ _).mp hm2
      have := (hanns a ha).1 m hma
      simp only [decide_eq_true_eq]
      omega
  constructor
  · rw [hlog, hnum, List.range'_1_concat, List.getLast?_concat]
  refine ⟨?_, ?_, ?_⟩
  · simp only [sqfs_write_inodes, write_child_inodes, wci_phase1, wci_phase2,
      write_inode, info0, root_only, cfg0, tree_node_t.children]
    rfl
  · simp only [sqfs_write_inodes, write_child_inodes, wci_phase1, wci_phase2,
      write_inode, info0, root_only, cfg0, tree_node_t.children, write_dir,
      write_dir_groups, write_dir_groupsF, wi_emit]
    rfl
  · simp only [sqfs_write_inodes, write_child_inodes, wci_phase1, wci_phase2,
      write_inode, info0, root_only, cfg0, tree_node_t.children]
    rfl

/-- C5: when a node is serialized, its inode_ref is the inode meta-writer
block start offset shifted left by 16 or-ed with the byte offset inside
the current uncompressed block, captured from the state before the record
bytes are appended; after serialization the super block root_inode_ref
equals the inode_ref of the root node. -/
theorem C5_inode_ref_capture :
    (∀ (cfg : sqfs_cfg_t) (st : serializer_state) (p : Option Nat)
        (n : tree_node_t) (anns : List ainode),
      (write_inode cfg st p n anns).2.inode_ref =
        ((st.im.block_offset <<< 16) ||| st.im.offset) % 18446744073709551616) ∧
    (∀ (cfg : sqfs_cfg_t) (info : sqfs_info_t),
      (sqfs_write_inodes cfg info).info.super.root_inode_ref =
        (sqfs_write_inodes cfg info).root_ann.inode_ref) :=
  ⟨write_inode_inode_ref, sqfs_rref⟩

/-- C6: after a serializer run, the super block records inode_table_start
at the bytes_used value it started from, directory_table_start exactly
one inode meta-stream length later, bytes_used grows by both stream
lengths, and the image gains the inode stream followed immediately by the
directory stream, which had been written to the temporary file. -/
theorem C6_table_layout (cfg : sqfs_cfg_t) (info : sqfs_info_t) :
    (sqfs_write_inodes cfg info).info.super.inode_table_start =
      info.super.bytes_used ∧
    (sqfs_write_inodes cfg info).info.super.directory_table_start =
      (sqfs_write_inodes cfg info).info.super.inode_table_start +
        ((sqfs_write_inodes cfg info).im.out).length ∧
    (sqfs_write_inodes cfg info).info.super.bytes_used =
      (sqfs_write_inodes cfg info).info.super.directory_table_start +
        ((sqfs_write_inodes cfg info).dm.out).length ∧
    (sqfs_write_inodes cfg info).info.image =
      info.image ++ (sqfs_write_inodes cfg info).im.out ++
        (sqfs_write_inodes cfg info).dm.out := by
  have hrun := sqfs_run_evolves cfg info
  obtain ⟨_, _, _, _, hbu, _, _, _, ⟨ibs, hibs⟩, ⟨dbs, hdbs⟩⟩ := hrun
  have him : (sqfs_write_inodes cfg info).im.block_offset =
      ((sqfs_write_inodes cfg info).im.out).length := by
    rw [sqfs_im]
    refine meta_writer_flush_inv cfg.cmp _ ?_
    rw [hibs]
    exact meta_writer_append_inv cfg.cmp ibs meta_writer_create rfl
  have hdm : (sqfs_write_inodes cfg info).dm.block_offset =
      ((sqfs_write_inodes cfg info).dm.out).length := by
    rw [sqfs_dm]
    refine meta_writer_flush_inv cfg.cmp _ ?_
    rw [hdbs]
    exact meta_writer_append_inv cfg.cmp dbs meta_writer_create rfl
  refine ⟨?_, ?_, ?_, sqfs_image cfg info⟩
  · rw [sqfs_its, hbu]
  · rw [sqfs_dts, sqfs_its, him]
  · rw [sqfs_bu, hdm]

/-! Variant selection lemmas. -/

theorem wi_emit_itype (cfg : sqfs_cfg_t) (st : serializer_state) (anns : List ainode)
    (n : tree_node_t) (it : Nat) (tl : List Nat) (dm2 : meta_writer_t) :
    (wi_emit cfg st anns n it tl dm2).2.itype = it := rfl

theorem write_inode_file_itype (cfg : sqfs_cfg_t) (st : serializer_state)
    (p : Option Nat) (nm : String) (pm u g t : Nat) (fi : file_info_t)
    (anns : List ainode) :
    (write_inode cfg st p (tree_node_t.file nm pm u g t fi) anns).2.itype =
      if fi.startblock > 4294967295 ∨ fi.size > 4294967295 ∨
         hard_link_count (tree_node_t.file nm pm u g t fi) > 1 then
        SQFS_INODE_EXT_FILE
      else SQFS_INODE_FILE := by
  by_cases h : fi.startblock > 4294967295 ∨ fi.size > 4294967295 ∨
      hard_link_count (tree_node_t.file nm pm u g t fi) > 1
  · simp only [write_inode, h, if_true, wi_emit_itype]
  · simp only [write_inode, h, if_false, wi_emit_itype]

theorem write_inode_dir_itype (cfg : sqfs_cfg_t) (st : serializer_state)
    (p : Option Nat) (nm : String) (pm u g t : Nat) (ch : List tree_node_t)
    (anns : List ainode) :
    (write_inode cfg st p (tree_node_t.dir nm pm u g t ch) anns).2.itype =
      if (write_dir cfg.cmp st.dm (anns.map ainode.toSrc)).2.start_block > 4294967295 ∨
         (write_dir cfg.cmp st.dm (anns.map ainode.toSrc)).2.size > 65535 then
        SQFS_INODE_EXT_DIR
      else SQFS_INODE_DIR := by
  by_cases h : (write_dir cfg.cmp st.dm (anns.map ainode.toSrc)).2.start_block > 4294967295 ∨
      (write_dir cfg.cmp st.dm (anns.map ainode.toSrc)).2.size > 65535
  · simp only [write_inode, h, if_true, wi_emit_itype]
  · simp only [write_inode, h, if_false, wi_emit_itype]

theorem write_dir_start_block (cmp : List Nat → List Nat) (dm : meta_writer_t)
    (children : List dirent_source) :
    (write_dir cmp dm children).2.start_block = dm.block_offset := rfl

/-- C2: the extended inode form is chosen exactly when a field exceeds
the narrow range: for a regular file when size or start block exceed the
32-bit range or the hard link count exceeds one, for a directory when the
listing size exceeds the 16-bit range or the listing start block exceeds
the 32-bit range; a file of size 4294967295 gets the narrow form and a
file of size 4294967296 the extended form. The embedded writer supports
no extended attributes, so the xattr clause of the claim never fires. -/
theorem C2_extended_inode_threshold (cfg : sqfs_cfg_t) (st : serializer_state)
    (p : Option Nat) (nm : String) (pm u g t : Nat) (anns : List ainode) :
    (∀ fi : file_info_t,
      (write_inode cfg st p (tree_node_t.file nm pm u g t fi) anns).2.itype =
          SQFS_INODE_EXT_FILE ↔
        fi.size > 4294967295 ∨ fi.startblock > 4294967295 ∨
        hard_link_count (tree_node_t.file nm pm u g t fi) > 1) ∧
    (∀ ch : List tree_node_t,
      (write_inode cfg st p (tree_node_t.dir nm pm u g t ch) anns).2.itype =
          SQFS_INODE_EXT_DIR ↔
        (write_dir cfg.cmp st.dm (anns.map ainode.toSrc)).2.size > 65535 ∨
        st.dm.block_offset > 4294967295) ∧
    (write_inode cfg st p
        (tree_node_t.file nm pm u g t ⟨4294967295, 0, 0, 0, []⟩) anns).2.itype =
      SQFS_INODE_FILE ∧
    (write_inode cfg st p
        (tree_node_t.file nm pm u g t ⟨4294967296, 0, 0, 0, []⟩) anns).2.itype =
      SQFS_INODE_EXT_FILE := by
  refine ⟨?_, ?_, ?_, ?_⟩
  · intro fi
    rw [write_inode_file_itype]
    constructor
    · intro h
      by_contra hc
      rw [if_neg] at h
      · exact absurd h (by simp [SQFS_INODE_FILE, SQFS_INODE_EXT_FILE])
      · tauto
    · intro h
      rw [if_pos]
      tauto
  · intro ch
    rw [write_inode_dir_itype, write_dir_start_block]
    constructor
    · intro h
      by_contra hc
      rw [if_neg] at h
      · exact absurd h (by simp [SQFS_INODE_DIR, SQFS_INODE_EXT_DIR])
      · tauto
    · intro h
      rw [if_pos]
      tauto
  · rw [write_inode_file_itype, if_neg]
    simp [hard_link_count]
  · rw [write_inode_file_itype, if_pos]
    simp

/-- C9: the serialized nlink is two plus the number of direct children
for a directory and exactly one for every other node kind, so the hard
link clause of the extended file promotion never fires and a regular file
is promoted exactly when size or start block exceed the 32-bit range. -/
theorem C9_hard_link_count :
    (∀ (nm : String) (pm u g t : Nat) (ch : List tree_node_t),
      hard_link_count (tree_node_t.dir nm pm u g t ch) = 2 + ch.length) ∧
    (∀ (nm : String) (pm u g t : Nat) (fi : file_info_t),
      hard_link_count (tree_node_t.file nm pm u g t fi) = 1) ∧
    (∀ (nm tg : String) (pm u g t : Nat),
      hard_link_count (tree_node_t.slink nm pm u g t tg) = 1) ∧
    (∀ (nm : String) (pm u g t d : Nat),
      hard_link_count (tree_node_t.bdev nm pm u g t d) = 1 ∧
      hard_link_count (tree_node_t.cdev nm pm u g t d) = 1) ∧
    (∀ (nm : String) (pm u g t : Nat),
      hard_link_count (tree_node_t.fifo nm pm u g t) = 1 ∧
      hard_link_count (tree_node_t.sock nm pm u g t) = 1) ∧
    (∀ (cfg : sqfs_cfg_t) (st : serializer_state) (p : Option Nat) (nm : String)
        (pm u g t : Nat) (fi : file_info_t) (anns : List ainode),
      (write_inode cfg st p (tree_node_t.file nm pm u g t fi) anns).2.itype =
          SQFS_INODE_EXT_FILE ↔
        fi.size > 4294967295 ∨ fi.startblock > 4294967295) := by
  refine ⟨fun _ _ _ _ _ _ => rfl, fun _ _ _ _ _ _ => rfl, fun _ _ _ _ _ _ => rfl,
    fun _ _ _ _ _ _ => ⟨rfl, rfl⟩, fun _ _ _ _ _ => ⟨rfl, rfl⟩, ?_⟩
  intro cfg st p nm pm u g t fi anns
  rw [write_inode_file_itype]
  have hl : hard_link_count (tree_node_t.file nm pm u g t fi) = 1 := rfl
  constructor
  · intro h
    by_contra hc
    rw [if_neg] at h
    · exact absurd h (by simp [SQFS_INODE_FILE, SQFS_INODE_EXT_FILE])
    · rw [hl]
      omega
  · intro h
    rw [if_pos]
    omega

/-- C10: the mod_time field of every serialized inode record is the
configured default mtime, and the mtime stored on a node is never
consulted: replacing it leaves the entire serialization result
unchanged. -/
theorem C10_mod_time_default :
    (∀ (cfg : sqfs_cfg_t) (it mo ui gi inum : Nat),
      ((inode_base_bytes cfg it mo ui gi inum).drop 8).take 4 =
        encodeU32 cfg.def_mtime) ∧
    (∀ (cfg : sqfs_cfg_t) (st : serializer_state) (p : Option Nat)
        (n : tree_node_t) (anns : List ainode) (t2 : Nat),
      write_inode cfg st p (set_mtime t2 n) anns = write_inode cfg st p n anns) := by
  constructor
  · intro cfg it mo ui gi inum
    rfl
  · intro cfg st p n anns t2
    cases n <;> rfl

/-- C7: the append_block loop of the data-reader dump path never turns a
zero write result into an error: whenever the loop terminates it returns
zero, also on traces where write reported zero bytes written, whereas the
write_retry helper returns minus one on the same trace. -/
theorem C7_append_block_zero_write :
    (∀ (tr : List write_res) (s : Nat),
      append_block tr s = none ∨ append_block tr s = some 0) ∧
    append_block ztr 5 = some 0 ∧
    write_retry ztr 5 = some (-1) := by
  refine ⟨?_, by decide, by decide⟩
  intro tr
  induction tr with
  | nil =>
      intro s
      cases s with
      | zero => right; simp [append_block]
      | succ k => left; simp [append_block]
  | cons r rest ih =>
      intro s
      cases s with
      | zero => right; simp [append_block]
      | succ k =>
          cases r with
          | ok n => simpa [append_block] using ih (sub64 (k + 1) n)
          | eintr => simpa [append_block] using ih (k + 1)
          | err => simpa [append_block] using ih ((k + 1 + 1) % 18446744073709551616)

/-- C8: a tar header with the hard-link type flag is decoded as a symlink
entry whose mode is exactly S_IFLNK with full permissions, and whose link
target is taken from the linkname header field unless a preceding PAX
header supplied a linkpath. -/
theorem C8_tar_hardlink_to_symlink (readNum readOct : String → Option Nat)
    (hdr : tar_header_t) (pax ver : Nat) (out0 out : tar_header_decoded_t)
    (htype : hdr.typeflag = '1')
    (h : decode_header readNum readOct hdr pax ver out0 = some out) :
    out.sb.st_mode = (S_IFLNK ||| 511) ∧
    out.link_target =
      (if pax &&& PAX_SLINK_TARGET = 0 then hdr.linkname else out0.link_target) := by
  simp only [decode_header, Option.bind_eq_some, Option.pure_def,
    Option.some.injEq] at h
  obtain ⟨rsize, _, uid1, _, gid1, _, dmaj, _, dmin, _, mt, _, fld, _, hout⟩ := h
  subst hout
  constructor
  · simp only [htype, TAR_TYPE_FILE, TAR_TYPE_LINK, TAR_TYPE_SLINK,
      TAR_TYPE_CHARDEV, TAR_TYPE_BLOCKDEV, TAR_TYPE_DIR, TAR_TYPE_FIFO,
      TAR_TYPE_GNU_SPARSE]
    simp
  · simp only [htype, TAR_TYPE_FILE, TAR_TYPE_LINK, TAR_TYPE_SLINK,
      TAR_TYPE_CHARDEV, TAR_TYPE_BLOCKDEV, TAR_TYPE_DIR, TAR_TYPE_FIFO,
      TAR_TYPE_GNU_SPARSE]
    simp

/-! Structure of the directory grouping loop. -/

theorem sub32_self (a : Nat) : sub32 a a = 0 := by
  unfold sub32
  omega

theorem count_run_pos (c : dirent_source) (rest : List dirent_source) :
    1 ≤ count_run c (c :: rest) := by
  rw [count_run]
  rw [if_neg (by simp), if_neg (by simp [sub32_self])]
  omega

theorem count_run_le (c : dirent_source) :
    ∀ l : List dirent_source, count_run c l ≤ l.length := by
  intro l
  induction l with
  | nil => simp [count_run]
  | cons d rest ih =>
      rw [count_run]
      split
      · simp
      · split
        · simp
        · simpa using ih

theorem count_run_mem (c : dirent_source) :
    ∀ (l : List dirent_source) (e : dirent_source), e ∈ l.take (count_run c l) →
      e.inode_ref >>> 16 = c.inode_ref >>> 16 ∧
      sub32 e.inode_num c.inode_num ≤ 65535 := by
  intro l
  induction l with
  | nil =>
      intro e he
      simp [count_run] at he
  | cons d rest ih =>
      intro e he
      rw [count_run] at he
      by_cases h1 : d.inode_ref >>> 16 ≠ c.inode_ref >>> 16
      · rw [if_pos h1] at he
        simp at he
      · rw [if_neg h1] at he
        by_cases h2 : sub32 d.inode_num c.inode_num > 65535
        · rw [if_pos h2] at he
          simp at he
        · rw [if_neg h2, List.take_succ_cons] at he
          rcases List.mem_cons.mp he with rfl | he2
          · push_neg at h1
            exact ⟨h1, by omega⟩
          · exact ih e he2

theorem count_run_next (c : dirent_source) :
    ∀ l : List dirent_source, l.drop (count_run c l) = [] ∨
      ∃ d rest2, l.drop (count_run c l) = d :: rest2 ∧
        (d.inode_ref >>> 16 ≠ c.inode_ref >>> 16 ∨
         sub32 d.inode_num c.inode_num > 65535) := by
  intro l
  induction l with
  | nil => left; simp
  | cons d rest ih =>
      rw [count_run]
      by_cases h1 : d.inode_ref >>> 16 ≠ c.inode_ref >>> 16
      · rw [if_pos h1]
        right
        exact ⟨d, rest, by simp, Or.inl h1⟩
      · rw [if_neg h1]
        by_cases h2 : sub32 d.inode_num c.inode_num > 65535
        · rw [if_pos h2]
          right
          exact ⟨d, rest, by simp, Or.inr h2⟩
        · rw [if_neg h2]
          simpa using ih

theorem write_dir_groupsF_congr :
    ∀ (f1 : Nat) (l : List dirent_source) (f2 : Nat),
      l.length ≤ f1 → l.length ≤ f2 →
      write_dir_groupsF f1 l = write_dir_groupsF f2 l := by
  intro f1
  induction f1 with
  | zero =>
      intro l f2 h1 _
      have hl : l = [] := List.length_eq_zero.mp (by omega)
      subst hl
      cases f2 <;> rfl
  | succ k ih =>
      intro l f2 h1 h2
      cases l with
      | nil => cases f2 <;> rfl
      | cons c rest =>
          cases f2 with
          | zero => simp at h2
          | succ k2 =>
              simp only [write_dir_groupsF]
              congr 1
              have hp := count_run_pos c rest
              refine ih _ _ ?_ ?_
              · rw [List.length_drop]
                simp only [List.length_cons, SQFS_MAX_DIR_ENT] at h1 ⊢
                split <;> omega
              · rw [List.length_drop]
                simp only [List.length_cons, SQFS_MAX_DIR_ENT] at h2 ⊢
                split <;> omega

theorem write_dir_groups_cons (c : dirent_source) (rest : List dirent_source) :
    write_dir_groups (c :: rest) =
      (⟨((if count_run c (c :: rest) > SQFS_MAX_DIR_ENT then SQFS_MAX_DIR_ENT
            else count_run c (c :: rest)) - 1) % 4294967296,
        (c.inode_ref >>> 16) % 4294967296, c.inode_num % 4294967296⟩,
       (c :: rest).take (if count_run c (c :: rest) > SQFS_MAX_DIR_ENT then
          SQFS_MAX_DIR_ENT else count_run c (c :: rest))) ::
      write_dir_groups ((c :: rest).drop
        (if count_run c (c :: rest) > SQFS_MAX_DIR_ENT then SQFS_MAX_DIR_ENT
         else count_run c (c :: rest))) := by
  show write_dir_groupsF (c :: rest).length (c :: rest) = _
  rw [show (c :: rest).length = rest.length + 1 from rfl]
  simp only [write_dir_groupsF]
  congr 1
  have hp := count_run_pos c rest
  refine write_dir_groupsF_congr _ _ _ ?_ le_rfl
  rw [List.length_drop]
  simp only [List.length_cons, SQFS_MAX_DIR_ENT]
  split <;> omega

theorem write_dir_groups_spec :
    ∀ l : List dirent_source,
      ((write_dir_groups l).flatMap (fun g => g.2) = l) ∧
      (∀ g ∈ write_dir_groups l, group_okB g = true) ∧
      List.Chain' (fun g1 g2 => group_breakB g1 g2 = true) (write_dir_groups l) := by
  have main : ∀ (fuel : Nat) (l : List dirent_source), l.length ≤ fuel →
      ((write_dir_groups l).flatMap (fun g => g.2) = l) ∧
      (∀ g ∈ write_dir_groups l, group_okB g = true) ∧
      List.Chain' (fun g1 g2 => group_breakB g1 g2 = true) (write_dir_groups l) := by
    intro fuel
    induction fuel with
    | zero =>
        intro l h
        have hl : l = [] := List.length_eq_zero.mp (by omega)
        subst hl
        refine ⟨rfl, ?_, ?_⟩ <;> simp [write_dir_groups, write_dir_groupsF]
    | succ k ih =>
        intro l hlen
        cases l with
        | nil =>
            refine ⟨rfl, ?_, ?_⟩ <;> simp [write_dir_groups, write_dir_groupsF]
        | cons c rest =>
            have hp := count_run_pos c rest
            have hcle := count_run_le c (c :: rest)
            have hn1 : 1 ≤ (if count_run c (c :: rest) > SQFS_MAX_DIR_ENT then
                SQFS_MAX_DIR_ENT else count_run c (c :: rest)) := by
              simp only [SQFS_MAX_DIR_ENT]
              split <;> omega
            have hn256 : (if count_run c (c :: rest) > SQFS_MAX_DIR_ENT then
                SQFS_MAX_DIR_ENT else count_run c (c :: rest)) ≤ 256 := by
              simp only [SQFS_MAX_DIR_ENT]
              split <;> omega
            have hncr : (if count_run c (c :: rest) > SQFS_MAX_DIR_ENT then
                SQFS_MAX_DIR_ENT else count_run c (c :: rest)) ≤
                count_run c (c :: rest) := by
              simp only [SQFS_MAX_DIR_ENT]
              split <;> omega
            have hdrop : ((c :: rest).drop (if count_run c (c :: rest) > SQFS_MAX_DIR_ENT
                then SQFS_MAX_DIR_ENT else count_run c (c :: rest))).length ≤ k := by
              rw [List.length_drop]
              simp only [List.length_cons] at hlen ⊢
              omega
            have IH := ih _ hdrop
            have htlen : ((c :: rest).take (if count_run c (c :: rest) > SQFS_MAX_DIR_ENT
                then SQFS_MAX_DIR_ENT else count_run c (c :: rest))).length =
                (if count_run c (c :: rest) > SQFS_MAX_DIR_ENT then SQFS_MAX_DIR_ENT
                 else count_run c (c :: rest)) := by
              rw [List.length_take]
              simp only [List.length_cons] at hcle ⊢
              omega
            have hmem : ∀ e ∈ (c :: rest).take (if count_run c (c :: rest) > SQFS_MAX_DIR_ENT
                then SQFS_MAX_DIR_ENT else count_run c (c :: rest)),
                e.inode_ref >>> 16 = c.inode_ref >>> 16 ∧
                sub32 e.inode_num c.inode_num ≤ 65535 := by
              intro e he
              refine count_run_mem c (c :: rest) e ?_
              have hts : (c :: rest).take (if count_run c (c :: rest) > SQFS_MAX_DIR_ENT
                  then SQFS_MAX_DIR_ENT else count_run c (c :: rest)) =
                  ((c :: rest).take (count_run c (c :: rest))).take
                    (if count_run c (c :: rest) > SQFS_MAX_DIR_ENT then SQFS_MAX_DIR_ENT
                     else count_run c (c :: rest)) := by
                rw [List.take_take]
                congr 1
                omega
              rw [hts] at he
              exact List.take_subset _ _ he
            obtain ⟨m, hm⟩ : ∃ m, (if count_run c (c :: rest) > SQFS_MAX_DIR_ENT then
                SQFS_MAX_DIR_ENT else count_run c (c :: rest)) = m + 1 :=
              ⟨(if count_run c (c :: rest) > SQFS_MAX_DIR_ENT then SQFS_MAX_DIR_ENT
                else count_run c (c :: rest)) - 1, by omega⟩
            have htl : (c :: rest).take (if count_run c (c :: rest) > SQFS_MAX_DIR_ENT
                then SQFS_MAX_DIR_ENT else count_run c (c :: rest)) =
                c :: rest.take m := by
              rw [hm, List.take_succ_cons]
            have hL : (c :: rest.take m).length = m + 1 := by
              rw [← htl, htlen, hm]
            rw [write_dir_groups_cons]
            refine ⟨?_, ?_, ?_⟩
            · rw [List.flatMap_cons, IH.1, List.take_append_drop]
            · intro g hg
              rcases List.mem_cons.mp hg with rfl | hg2
              · rw [htl]
                simp only [group_okB, Bool.and_eq_true, decide_eq_true_eq,
                  List.all_eq_true]
                refine ⟨⟨?_, ?_⟩, ?_⟩
                · rw [hL]
                  rw [hm] at hn256
                  omega
                · rw [hm, hL]
                · intro e he
                  rw [← htl] at he
                  have h2 := hmem e he
                  simp [h2.1, h2.2]
              · exact IH.2.1 g hg2
            · rw [List.chain'_cons']
              refine ⟨?_, IH.2.2⟩
              intro y hy
              by_cases hbig : count_run c (c :: rest) > SQFS_MAX_DIR_ENT
              · unfold group_breakB
                have hrunlen : ((c :: rest).take (if count_run c (c :: rest) >
                    SQFS_MAX_DIR_ENT then SQFS_MAX_DIR_ENT
                    else count_run c (c :: rest))).length = SQFS_MAX_DIR_ENT := by
                  rw [htlen, if_pos hbig]
                rw [hrunlen]
                simp [SQFS_MAX_DIR_ENT]
              · rcases count_run_next c (c :: rest) with hnil | ⟨d, rest2, hd, hfail⟩
                · rw [if_neg hbig, hnil] at hy
                  simp [write_dir_groups, write_dir_groupsF] at hy
                · rw [if_neg hbig, hd] at hy
                  rw [write_dir_groups_cons] at hy
                  simp only [List.head?_cons, Option.mem_def, Option.some.injEq] at hy
                  subst hy
                  unfold group_breakB
                  have hb1 : ((c :: rest).take (if count_run c (c :: rest) >
                      SQFS_MAX_DIR_ENT then SQFS_MAX_DIR_ENT
                      else count_run c (c :: rest))).headD dirent_default = c := by
                    rw [htl]
                    rfl
                  have hb2 : ((d :: rest2).take (if count_run d (d :: rest2) >
                      SQFS_MAX_DIR_ENT then SQFS_MAX_DIR_ENT
                      else count_run d (d :: rest2))).headD dirent_default = d := by
                    have hp2 := count_run_pos d rest2
                    obtain ⟨m2, hm2⟩ : ∃ m2, (if count_run d (d :: rest2) >
                        SQFS_MAX_DIR_ENT then SQFS_MAX_DIR_ENT
                        else count_run d (d :: rest2)) = m2 + 1 := by
                      refine ⟨(if count_run d (d :: rest2) > SQFS_MAX_DIR_ENT then
                        SQFS_MAX_DIR_ENT else count_run d (d :: rest2)) - 1, ?_⟩
                      simp only [SQFS_MAX_DIR_ENT]
                      split <;> omega
                    rw [hm2, List.take_succ_cons]
                    rfl
                  simp only [hb1, hb2, Bool.or_eq_true, decide_eq_true_eq]
                  tauto
  intro l
  exact main l.length l le_rfl

/-- C3 counterexample: two children with a common upper inode_ref part
whose inode-number difference is 40000, which exceeds the signed 16-bit
range but not the unsigned one, are emitted under a single header with
both entries in its run, although the claim mandates a new header. -/
theorem C3_signed_range_counterexample :
    write_dir_groups [cxA, cxB] =
      [(⟨1, 0, 2⟩, [cxA, cxB])] ∧
    sub32 cxB.inode_num cxA.inode_num = 40000 ∧ 32767 < 40000 := by
  refine ⟨by decide, by decide, by omega⟩

set_option maxRecDepth 100000 in
/-- C3 as amended: write_dir splits a directory listing into groups of at
most 256 entries, each preceded by one header carrying the capped run
length minus one and the upper inode_ref bits and inode number of the
first run member; all members of a group share the upper inode_ref bits
of the base and lie within the unsigned 16-bit window of its inode number
in wrapping 32-bit subtraction; a new header starts exactly when the
previous group was full or the next child differs in the upper inode_ref
bits or exceeds that unsigned window; the groups partition the child list
in order, and a directory with 300 children with consecutive inode
numbers produces two headers covering 256 and 44 entries. -/
theorem C3_dir_headers (l : List dirent_source) :
    ((write_dir_groups l).flatMap (fun g => g.2) = l) ∧
    (write_dir_groups l).all group_okB = true ∧
    List.Chain' (fun g1 g2 => group_breakB g1 g2 = true) (write_dir_groups l) ∧
    (write_dir_groups l300).map (fun g => g.2.length) = [256, 44] ∧
    2 ≤ (write_dir_groups l300).length := by
  have h := write_dir_groups_spec l
  refine ⟨h.1, List.all_eq_true.mpr h.2.1, h.2.2, by decide, by decide⟩

/-! Delta encoding arithmetic. -/

theorem sub32_cast_emod (a b : Nat) (hb : b < 4294967296) :
    ((sub32 a b % 65536 : Nat) : Int) = ((a : Int) - (b : Int)) % 65536 := by
  unfold sub32
  rw [Nat.mod_mod_of_dvd _ (by norm_num : (65536 : Nat) ∣ 4294967296)]
  omega

/-- C4: every directory entry written by write_dir stores, in its 16-bit
inode field, the difference between its inode number and the inode number
in its group header, reduced modulo 65536 as a two-complement 16-bit
value, and stores the name length minus one in its size field. -/
theorem C4_entry_delta_encoding (l : List dirent_source)
    (g : sqfs_dir_header_t × List dirent_source) (e : dirent_source)
    (hg : g ∈ write_dir_groups l) (he : e ∈ g.2)
    (hlen1 : 1 ≤ e.name.length) (hlen2 : e.name.length ≤ 65536) :
    (((mk_entry g.1.inode_number e).inode_number : Nat) : Int) =
      ((e.inode_num : Int) - (g.1.inode_number : Int)) % 65536 ∧
    (mk_entry g.1.inode_number e).size = e.name.length - 1 := by
  have hok := (write_dir_groups_spec l).2.1 g hg
  have hb : g.1.inode_number < 4294967296 := by
    unfold group_okB at hok
    cases hrun : g.2 with
    | nil =>
        rw [hrun] at he
        simp at he
    | cons b tl =>
        rw [hrun] at hok
        simp only [Bool.and_eq_true, decide_eq_true_eq] at hok
        rw [hok.1.2]
        exact Nat.mod_lt _ (by norm_num)
  constructor
  · exact sub32_cast_emod e.inode_num g.1.inode_number hb
  · show sub64 e.name.length 1 % 65536 = e.name.length - 1
    unfold sub64
    omega

/-- C4 witness: the delta encoding evaluated on a concrete two-entry
group produced by write_dir. -/
theorem C4_entry_delta_encoding_witness :
    (((mk_entry ((⟨1, 0, 2⟩ : sqfs_dir_header_t)).inode_number
        (⟨0, 5, 1, "xyz"⟩ : dirent_source)).inode_number : Nat) : Int) =
      (((⟨0, 5, 1, "xyz"⟩ : dirent_source).inode_num : Int) -
        (((⟨1, 0, 2⟩ : sqfs_dir_header_t)).inode_number : Int)) % 65536 ∧
    (mk_entry ((⟨1, 0, 2⟩ : sqfs_dir_header_t)).inode_number
        (⟨0, 5, 1, "xyz"⟩ : dirent_source)).size =
      (⟨0, 5, 1, "xyz"⟩ : dirent_source).name.length - 1 :=
  C4_entry_delta_encoding c4l (⟨1, 0, 2⟩, [⟨0, 2, 1, "ab"⟩, ⟨0, 5, 1, "xyz"⟩])
    ⟨0, 5, 1, "xyz"⟩ (by decide) (by decide) (by decide) (by decide)

/-- C8 witness: decoding a concrete hard-link header yields the symlink
mode and the linkname target. -/
theorem C8_tar_hardlink_to_symlink_witness :
    (⟨⟨41471, 0, 0, 0, 0⟩, "f", "target", 0, 0, false⟩ :
        tar_header_decoded_t).sb.st_mode = (S_IFLNK ||| 511) ∧
    (⟨⟨41471, 0, 0, 0, 0⟩, "f", "target", 0, 0, false⟩ :
        tar_header_decoded_t).link_target =
      (if 0 &&& PAX_SLINK_TARGET = 0 then hdr1.linkname
       else out_zero.link_target) :=
  C8_tar_hardlink_to_symlink readZero readZero hdr1 0 ETV_POSIX out_zero
    ⟨⟨41471, 0, 0, 0, 0⟩, "f", "target", 0, 0, false⟩ (by decide) (by decide)
